import Mathlib

/-!
# echo-app: `program.cpp` (two threads driving one car)

An interleaving model of `program.cpp`.  The program has one global
`std::mutex carMutex`, a thread function `driveCar(string driverName)` and a
`main` that starts two threads running `driveCar` and joins them.

Every statement of the source is one atomic step of the thread that executes
it; a `cout << a << b << endl` statement is three steps, one per inserted
piece.  A scheduler picks, at each step, which thread moves (or lets the
logical clock tick while a thread is asleep in `sleep_for`).
-/

namespace EchoApp

/-! ## Data model -/

/-- The two `std::thread` objects of `main`. -/
inductive Worker where
  | t1
  | t2
  deriving DecidableEq, Repr

/-- The other thread. -/
def Worker.other : Worker → Worker
  | .t1 => .t2
  | .t2 => .t1

/-- Program points of `driveCar` (source lines 10 to 15). -/
inductive Pc where
  /-- line 10: about to construct `carLock(carMutex)`, which locks the mutex -/
  | lock
  /-- line 11: about to run `cout << driverName` -/
  | say1
  /-- line 11: about to run `<< " is driving"` -/
  | say2
  /-- line 11: about to run `<< endl` -/
  | say3
  /-- line 12: about to call `this_thread::sleep_for(chrono::seconds(2))` -/
  | sleep
  /-- line 12: blocked inside `sleep_for` -/
  | asleep
  /-- line 13: about to run `cout << driverName` -/
  | fin1
  /-- line 13: about to run `<< " is done driving"` -/
  | fin2
  /-- line 13: about to run `<< endl` -/
  | fin3
  /-- line 14: about to run `carLock.unlock()` -/
  | unlock
  /-- line 15: end of scope, the destructor of `carLock` runs -/
  | ret
  /-- the thread function has returned -/
  | done
  deriving DecidableEq, Repr

/-- Program points of `main` (source lines 17 to 22). -/
inductive MainPc where
  /-- line 17: `thread t1(driveCar, "ATIBI")` -/
  | spawn1
  /-- line 18: `thread t2(driveCar, "Mohamed")` -/
  | spawn2
  /-- line 19: `t1.join()` -/
  | join1
  /-- line 20: `t2.join()` -/
  | join2
  /-- line 22: `return 0` -/
  | ret
  /-- after the return: `main` has returned -/
  | exited
  deriving DecidableEq, Repr

/-- One started thread: its program point, the by-value argument `driverName`,
whether its `unique_lock carLock` owns the mutex, the deadline of its
`sleep_for`, and whether `main` has joined it. -/
structure Thread where
  pc : Pc
  driverName : String
  carLockOwns : Bool
  wake : Nat
  joined : Bool
  deriving DecidableEq, Repr

/-- The whole program state.  `t1`/`t2` are `none` until `main` constructs the
thread; `carMutex` is the worker that has the mutex locked, if any; `cout` is
the text written to the console; `now` is the logical clock in seconds;
`exitCode` is set by `return 0`; `aborted` records a call of
`std::terminate`. -/
structure State where
  main : MainPc
  t1 : Option Thread
  t2 : Option Thread
  carMutex : Option Worker
  cout : String
  now : Nat
  exitCode : Option Int
  aborted : Bool
  deriving DecidableEq, Repr

/-- Who moves: `main`, one of the two threads, or the clock. -/
inductive Actor where
  | main
  | thread (w : Worker)
  | time
  deriving DecidableEq, Repr

/-- What a step does, as seen from outside. -/
inductive Event where
  /-- thread start: `main` constructs a thread running `driveCar name` -/
  | spawn (w : Worker) (name : String)
  /-- the constructor of `carLock` locks `carMutex` -/
  | acquire (w : Worker)
  /-- one `<<` insertion into `cout` -/
  | write (w : Worker) (text : String)
  /-- entry into `sleep_for` -/
  | sleepStart (w : Worker) (seconds : Nat)
  /-- the logical clock advances by one second -/
  | tick
  /-- return from `sleep_for` -/
  | wakeUp (w : Worker)
  /-- call of `carMutex.unlock()` on behalf of `w` -/
  | release (w : Worker)
  /-- return from `driveCar` -/
  | finish (w : Worker)
  /-- return of `main` from `join` on the thread -/
  | join (w : Worker)
  /-- return of `main` with a status -/
  | exit (code : Int)
  /-- call of `std::terminate` by the given actor -/
  | abort (a : Actor)
  deriving DecidableEq, Repr

/-- An event together with the clock value at which it happened. -/
structure Stamped where
  time : Nat
  ev : Event
  deriving DecidableEq, Repr

/-! ## The program -/

/-- The argument `main` passes to `driveCar` for each thread (lines 17, 18). -/
def Worker.name : Worker → String
  | .t1 => "ATIBI"
  | .t2 => "Mohamed"

/-- What `endl` inserts. -/
def endl : String := "\n"

/-- Length of the sleep, `chrono::seconds(2)`. -/
def sleepSeconds : Nat := 2

/-- A freshly started thread at the top of `driveCar`. -/
def Thread.start (name : String) : Thread :=
  { pc := .lock, driverName := name, carLockOwns := false, wake := 0, joined := false }

/-- The thread slot of a worker. -/
def State.thr (s : State) : Worker → Option Thread
  | .t1 => s.t1
  | .t2 => s.t2

/-- Overwrite the thread slot of a worker. -/
def State.setThr (s : State) (w : Worker) (t : Thread) : State :=
  match w with
  | .t1 => { s with t1 := some t }
  | .t2 => { s with t2 := some t }

/-- The state at program start. -/
def init : State :=
  { main := .spawn1, t1 := none, t2 := none, carMutex := none, cout := "",
    now := 0, exitCode := none, aborted := false }

/-- One step of the body of `driveCar`, run by worker `w` whose local state is
`t`.  `none` means the thread is blocked (waiting for the mutex, or asleep) or
has returned. -/
def driveCar (w : Worker) (t : Thread) (s : State) : Option (Event × State) :=
  match t.pc with
  | .lock =>
    -- unique_lock<mutex> carLock(carMutex);
    match s.carMutex with
    | none => some (.acquire w,
        { s.setThr w { t with pc := .say1, carLockOwns := true } with carMutex := some w })
    | some _ => none
  | .say1 =>
    -- cout << driverName
    some (.write w t.driverName,
      { s.setThr w { t with pc := .say2 } with cout := s.cout ++ t.driverName })
  | .say2 =>
    -- << " is driving"
    some (.write w " is driving",
      { s.setThr w { t with pc := .say3 } with cout := s.cout ++ " is driving" })
  | .say3 =>
    -- << endl;
    some (.write w endl,
      { s.setThr w { t with pc := .sleep } with cout := s.cout ++ endl })
  | .sleep =>
    -- this_thread::sleep_for(chrono::seconds(2));
    some (.sleepStart w sleepSeconds,
      s.setThr w { t with pc := .asleep, wake := s.now + sleepSeconds })
  | .asleep =>
    if t.wake ≤ s.now then some (.wakeUp w, s.setThr w { t with pc := .fin1 })
    else none
  | .fin1 =>
    -- cout << driverName
    some (.write w t.driverName,
      { s.setThr w { t with pc := .fin2 } with cout := s.cout ++ t.driverName })
  | .fin2 =>
    -- << " is done driving"
    some (.write w " is done driving",
      { s.setThr w { t with pc := .fin3 } with cout := s.cout ++ " is done driving" })
  | .fin3 =>
    -- << endl;
    some (.write w endl,
      { s.setThr w { t with pc := .unlock } with cout := s.cout ++ endl })
  | .unlock =>
    -- carLock.unlock();  throws (and so terminates) when carLock does not own
    if t.carLockOwns then
      some (.release w,
        { s.setThr w { t with pc := .ret, carLockOwns := false } with carMutex := none })
    else some (.abort (.thread w), { s with aborted := true })
  | .ret =>
    -- } : ~unique_lock unlocks only when it still owns the mutex
    if t.carLockOwns then
      some (.release w,
        { s.setThr w { t with pc := .done, carLockOwns := false } with carMutex := none })
    else some (.finish w, s.setThr w { t with pc := .done })
  | .done => none

/-- A thread object is joinable when it was started and not yet joined. -/
def joinable : Option Thread → Bool
  | none => false
  | some t => !t.joined

/-- A thread is finished when `driveCar` has returned. -/
def finished : Option Thread → Bool
  | none => false
  | some t => t.pc == .done

/-- The call `t.join()`: blocks until the thread has finished, then marks it joined. -/
def joinStep (w : Worker) (next : MainPc) (s : State) : Option (Event × State) :=
  match s.thr w with
  | none => none
  | some t =>
    if t.pc = .done then
      some (.join w, { s.setThr w { t with joined := true } with main := next })
    else none

/-- One step of `main`. -/
def mainStep (s : State) : Option (Event × State) :=
  match s.main with
  | .spawn1 =>
    -- thread t1(driveCar, "ATIBI");
    some (.spawn .t1 "ATIBI", { s with main := .spawn2, t1 := some (Thread.start "ATIBI") })
  | .spawn2 =>
    -- thread t2(driveCar, "Mohamed");
    some (.spawn .t2 "Mohamed", { s with main := .join1, t2 := some (Thread.start "Mohamed") })
  | .join1 => joinStep .t1 .join2 s
  | .join2 => joinStep .t2 .ret s
  | .ret =>
    -- return 0;  the destructors of t2 and t1 terminate when still joinable
    if joinable s.t1 || joinable s.t2 then some (.abort .main, { s with aborted := true })
    else some (.exit 0, { s with main := .exited, exitCode := some 0 })
  | .exited => none

/-- Whether some thread is inside `sleep_for` with its deadline still ahead. -/
def sleeping (s : State) (o : Option Thread) : Bool :=
  match o with
  | none => false
  | some t => t.pc == .asleep && decide (s.now < t.wake)

/-- The clock: it only advances while a thread is waiting for its deadline. -/
def timeStep (s : State) : Option (Event × State) :=
  if sleeping s s.t1 || sleeping s s.t2 then some (.tick, { s with now := s.now + 1 })
  else none

/-- One step of the program by the chosen actor; `none` when that actor cannot
move.  Nothing moves after `std::terminate`. -/
def step (a : Actor) (s : State) : Option (Event × State) :=
  if s.aborted then none
  else
    match a with
    | .main => mainStep s
    | .thread w =>
      match s.thr w with
      | none => none
      | some t => driveCar w t s
    | .time => timeStep s

/-- Run a schedule from a state, collecting the time-stamped events. -/
def exec : List Actor → State → Option (List Stamped × State)
  | [], s => some ([], s)
  | a :: rest, s =>
    match step a s with
    | none => none
    | some (e, s') =>
      match exec rest s' with
      | none => none
      | some (tr, s'') => some (⟨s.now, e⟩ :: tr, s'')

/-! ## Sample runs -/

/-- Thread `t1` runs to completion before `t2` takes the mutex. -/
def schedAtibiFirst : List Actor :=
  [.main, .main] ++ List.replicate 5 (.thread .t1) ++ [.time, .time]
    ++ List.replicate 6 (.thread .t1)
    ++ List.replicate 5 (.thread .t2) ++ [.time, .time]
    ++ List.replicate 6 (.thread .t2) ++ [.main, .main, .main]

/-- Both threads are started, then `t2` takes the mutex first. -/
def schedMohamedFirst : List Actor :=
  [.main, .main] ++ List.replicate 5 (.thread .t2) ++ [.time, .time]
    ++ List.replicate 6 (.thread .t2)
    ++ List.replicate 5 (.thread .t1) ++ [.time, .time]
    ++ List.replicate 6 (.thread .t1) ++ [.main, .main, .main]

/-- A short run: both threads started, `t1` has taken the mutex and inserted
its name. -/
def schedMid : List Actor := [.main, .main, .thread .t1, .thread .t1]

/-- Trace of `schedMid`. -/
def traceMid : List Stamped :=
  [⟨0, .spawn .t1 "ATIBI"⟩, ⟨0, .spawn .t2 "Mohamed"⟩, ⟨0, .acquire .t1⟩,
   ⟨0, .write .t1 "ATIBI"⟩]

/-- State after `schedMid`. -/
def stateMid : State :=
  { main := .join1,
    t1 := some { pc := .say2, driverName := "ATIBI", carLockOwns := true, wake := 0, joined := false },
    t2 := some (Thread.start "Mohamed"),
    carMutex := some .t1, cout := "ATIBI", now := 0, exitCode := none, aborted := false }

/-- Trace of `schedAtibiFirst`. -/
def traceAtibiFirst : List Stamped :=
  [⟨0, .spawn .t1 "ATIBI"⟩, ⟨0, .spawn .t2 "Mohamed"⟩, ⟨0, .acquire .t1⟩,
   ⟨0, .write .t1 "ATIBI"⟩, ⟨0, .write .t1 " is driving"⟩, ⟨0, .write .t1 "\n"⟩,
   ⟨0, .sleepStart .t1 2⟩, ⟨0, .tick⟩, ⟨1, .tick⟩, ⟨2, .wakeUp .t1⟩,
   ⟨2, .write .t1 "ATIBI"⟩, ⟨2, .write .t1 " is done driving"⟩, ⟨2, .write .t1 "\n"⟩,
   ⟨2, .release .t1⟩, ⟨2, .finish .t1⟩, ⟨2, .acquire .t2⟩, ⟨2, .write .t2 "Mohamed"⟩,
   ⟨2, .write .t2 " is driving"⟩, ⟨2, .write .t2 "\n"⟩, ⟨2, .sleepStart .t2 2⟩, ⟨2, .tick⟩,
   ⟨3, .tick⟩, ⟨4, .wakeUp .t2⟩, ⟨4, .write .t2 "Mohamed"⟩,
   ⟨4, .write .t2 " is done driving"⟩, ⟨4, .write .t2 "\n"⟩, ⟨4, .release .t2⟩,
   ⟨4, .finish .t2⟩, ⟨4, .join .t1⟩, ⟨4, .join .t2⟩, ⟨4, .exit 0⟩]

/-- Trace of `schedMohamedFirst`. -/
def traceMohamedFirst : List Stamped :=
  [⟨0, .spawn .t1 "ATIBI"⟩, ⟨0, .spawn .t2 "Mohamed"⟩, ⟨0, .acquire .t2⟩,
   ⟨0, .write .t2 "Mohamed"⟩, ⟨0, .write .t2 " is driving"⟩, ⟨0, .write .t2 "\n"⟩,
   ⟨0, .sleepStart .t2 2⟩, ⟨0, .tick⟩, ⟨1, .tick⟩, ⟨2, .wakeUp .t2⟩,
   ⟨2, .write .t2 "Mohamed"⟩, ⟨2, .write .t2 " is done driving"⟩, ⟨2, .write .t2 "\n"⟩,
   ⟨2, .release .t2⟩, ⟨2, .finish .t2⟩, ⟨2, .acquire .t1⟩, ⟨2, .write .t1 "ATIBI"⟩,
   ⟨2, .write .t1 " is driving"⟩, ⟨2, .write .t1 "\n"⟩, ⟨2, .sleepStart .t1 2⟩, ⟨2, .tick⟩,
   ⟨3, .tick⟩, ⟨4, .wakeUp .t1⟩, ⟨4, .write .t1 "ATIBI"⟩,
   ⟨4, .write .t1 " is done driving"⟩, ⟨4, .write .t1 "\n"⟩, ⟨4, .release .t1⟩,
   ⟨4, .finish .t1⟩, ⟨4, .join .t1⟩, ⟨4, .join .t2⟩, ⟨4, .exit 0⟩]

/-- Console text when `t1` takes the mutex first. -/
def outAtibiFirst : String :=
  "ATIBI is driving\nATIBI is done driving\nMohamed is driving\nMohamed is done driving\n"

/-- Console text when `t2` takes the mutex first. -/
def outMohamedFirst : String :=
  "Mohamed is driving\nMohamed is done driving\nATIBI is driving\nATIBI is done driving\n"

/-- State after `schedAtibiFirst`. -/
def finalAtibiFirst : State :=
  { main := .exited,
    t1 := some { pc := .done, driverName := "ATIBI", carLockOwns := false, wake := 2, joined := true },
    t2 := some { pc := .done, driverName := "Mohamed", carLockOwns := false, wake := 4, joined := true },
    carMutex := none, cout := outAtibiFirst, now := 4, exitCode := some 0, aborted := false }

/-- State after `schedMohamedFirst`. -/
def finalMohamedFirst : State :=
  { main := .exited,
    t1 := some { pc := .done, driverName := "ATIBI", carLockOwns := false, wake := 4, joined := true },
    t2 := some { pc := .done, driverName := "Mohamed", carLockOwns := false, wake := 2, joined := true },
    carMutex := none, cout := outMohamedFirst, now := 4, exitCode := some 0, aborted := false }

/-- A state the program cannot reach, used to exercise the clock alone: both
threads are inside `sleep_for` at time 0, each with deadline 2. -/
def bothAsleep : State :=
  { main := .join1,
    t1 := some { pc := .asleep, driverName := "ATIBI", carLockOwns := true, wake := 2,
                 joined := false },
    t2 := some { pc := .asleep, driverName := "Mohamed", carLockOwns := true, wake := 2,
                 joined := false },
    carMutex := some .t1, cout := "", now := 0, exitCode := none, aborted := false }

/-! ## Reachability and the state invariant -/

/-- Traces and states reachable from `init`; the trace grows at its end. -/
inductive Reach : List Stamped → State → Prop where
  | start : Reach [] init
  | next {tr : List Stamped} {s s' : State} {a : Actor} {e : Event} :
      Reach tr s → step a s = some (e, s') → Reach (tr ++ [⟨s.now, e⟩]) s'

/-- The thread is between its lock acquisition and its `carLock.unlock()`. -/
def Pc.inCS : Pc → Bool
  | .lock => false
  | .ret => false
  | .done => false
  | _ => true

/-- Seconds of sleep a thread at this program point has behind it. -/
def Pc.slept : Pc → Nat
  | .fin1 => 2
  | .fin2 => 2
  | .fin3 => 2
  | .unlock => 2
  | .ret => 2
  | .done => 2
  | _ => 0

/-- Number of `<<` insertions a thread at this program point has performed. -/
def Pc.written : Pc → Nat
  | .lock => 0
  | .say1 => 0
  | .say2 => 1
  | .say3 => 2
  | .sleep => 3
  | .asleep => 3
  | .fin1 => 3
  | .fin2 => 4
  | .fin3 => 5
  | _ => 6

/-- Whether worker `w` is inside its critical section. -/
def State.holds (s : State) (w : Worker) : Bool :=
  match s.thr w with
  | none => false
  | some t => t.pc.inCS

/-- Seconds of sleep the thread has behind it, counting a sleep in progress
up to the clock value `now`. -/
def elapsed (now : Nat) : Option Thread → Nat
  | none => 0
  | some t => if t.pc = .asleep then now + sleepSeconds - t.wake else t.pc.slept

/-- Per-thread part of the state invariant, against the mutex and the clock. -/
def ThreadOk (mtx : Option Worker) (now : Nat) (w : Worker) : Option Thread → Prop
  | none => mtx ≠ some w
  | some t =>
    t.driverName = w.name ∧ t.carLockOwns = t.pc.inCS ∧
    (mtx = some w ↔ t.pc.inCS = true) ∧
    (t.joined = true → t.pc = .done) ∧
    (t.pc = .asleep → now ≤ t.wake ∧ t.wake ≤ now + sleepSeconds)

/-- How far `main` is, against the thread slots. -/
def MainOk (s : State) : Prop :=
  match s.main with
  | .spawn1 => s.t1 = none ∧ s.t2 = none ∧ s.exitCode = none
  | .spawn2 => s.t1.isSome ∧ s.t2 = none ∧ joinable s.t1 = true ∧ s.exitCode = none
  | .join1 => s.t1.isSome ∧ s.t2.isSome ∧ joinable s.t1 = true ∧ joinable s.t2 = true ∧
      s.exitCode = none
  | .join2 => s.t1.isSome ∧ s.t2.isSome ∧ joinable s.t1 = false ∧ joinable s.t2 = true ∧
      s.exitCode = none
  | .ret => s.t1.isSome ∧ s.t2.isSome ∧ joinable s.t1 = false ∧ joinable s.t2 = false ∧
      s.exitCode = none
  | .exited => s.t1.isSome ∧ s.t2.isSome ∧ joinable s.t1 = false ∧ joinable s.t2 = false ∧
      s.exitCode = some 0

/-- The state invariant. -/
def SInv (s : State) : Prop :=
  s.aborted = false ∧ MainOk s ∧ ThreadOk s.carMutex s.now .t1 s.t1 ∧
  ThreadOk s.carMutex s.now .t2 s.t2 ∧
  elapsed s.now s.t1 + elapsed s.now s.t2 = s.now

/-! ## Traces -/

/-- The actor that performs an event. -/
def Event.actor : Event → Actor
  | .spawn _ _ => .main
  | .acquire w => .thread w
  | .write w _ => .thread w
  | .sleepStart w _ => .thread w
  | .tick => .time
  | .wakeUp w => .thread w
  | .release w => .thread w
  | .finish w => .thread w
  | .join _ => .main
  | .exit _ => .main
  | .abort a => a

/-- Whether the event is a `<<` insertion. -/
def Event.isWrite : Event → Bool
  | .write _ _ => true
  | _ => false

/-- The text an event puts on the console. -/
def Event.text : Event → String
  | .write _ s => s
  | _ => ""

/-- The `<<` insertions of a trace, in order, with their time stamps. -/
def writes (tr : List Stamped) : List Stamped :=
  tr.filter (fun x => x.ev.isWrite)

/-- The events of one actor in a trace, in order. -/
def proj (a : Actor) (tr : List Stamped) : List Event :=
  (tr.map (fun x => x.ev)).filter (fun e => decide (e.actor = a))

/-- The console text a list of events produces. -/
def textOf : List Stamped → String
  | [] => ""
  | x :: xs => x.ev.text ++ textOf xs

/-- The events of a whole run of `driveCar name` by worker `w`, in program
order (lines 10 to 15). -/
def script (w : Worker) (name : String) : List Event :=
  [.acquire w, .write w name, .write w " is driving", .write w endl,
   .sleepStart w sleepSeconds, .wakeUp w,
   .write w name, .write w " is done driving", .write w endl,
   .release w, .finish w]

/-- The events of `main`, in program order (lines 17 to 22). -/
def mainScript : List Event :=
  [.spawn .t1 "ATIBI", .spawn .t2 "Mohamed", .join .t1, .join .t2, .exit 0]

/-- Number of steps of `driveCar` behind a program point. -/
def Pc.idx : Pc → Nat
  | .lock => 0
  | .say1 => 1
  | .say2 => 2
  | .say3 => 3
  | .sleep => 4
  | .asleep => 5
  | .fin1 => 6
  | .fin2 => 7
  | .fin3 => 8
  | .unlock => 9
  | .ret => 10
  | .done => 11

/-- Number of steps of `main` behind a program point. -/
def MainPc.idx : MainPc → Nat
  | .spawn1 => 0
  | .spawn2 => 1
  | .join1 => 2
  | .join2 => 3
  | .ret => 4
  | .exited => 5

/-- Steps behind a thread slot. -/
def idxOf : Option Thread → Nat
  | none => 0
  | some t => t.pc.idx

/-- The six insertions of worker `w` when it takes the mutex at time `t0`:
the first line at `t0`, the second after the sleep. -/
def block (w : Worker) (name : String) (t0 : Nat) : List Stamped :=
  [⟨t0, .write w name⟩, ⟨t0, .write w " is driving"⟩, ⟨t0, .write w endl⟩,
   ⟨t0 + sleepSeconds, .write w name⟩, ⟨t0 + sleepSeconds, .write w " is done driving"⟩,
   ⟨t0 + sleepSeconds, .write w endl⟩]

/-- The insertions a thread slot has performed so far, had it taken the mutex
at time `t0`. -/
def wrote (w : Worker) (t0 : Nat) : Option Thread → List Stamped
  | none => []
  | some t => (block w w.name t0).take t.pc.written

/-- Seconds of completed sleep of a thread slot. -/
def sleptOf : Option Thread → Nat
  | none => 0
  | some t => t.pc.slept

/-- Whether a thread slot is inside its critical section. -/
def inCSOf : Option Thread → Bool
  | none => false
  | some t => t.pc.inCS

/-- Bookkeeping invariant: every actor's events are a prefix of its script,
as long as its program point says; the console is the text of the insertions;
the trace has one event per step taken. -/
def PInv (tr : List Stamped) (s : State) : Prop :=
  proj (.thread .t1) tr = (script .t1 Worker.t1.name).take (idxOf s.t1) ∧
  proj (.thread .t2) tr = (script .t2 Worker.t2.name).take (idxOf s.t2) ∧
  proj .main tr = mainScript.take s.main.idx ∧
  proj .time tr = List.replicate s.now .tick ∧
  s.cout = textOf (writes tr) ∧
  tr.length = s.main.idx + idxOf s.t1 + idxOf s.t2 + s.now

/-- Shape of the insertion log: the insertions of one worker, all of them
before those of the other.  The worker inside its critical section, if any, is
the later one, and it took the mutex when the earlier one had finished
sleeping. -/
def WInv (tr : List Stamped) (s : State) : Prop :=
  (inCSOf s.t2 = true →
    writes tr = wrote .t1 0 s.t1 ++ wrote .t2 (sleptOf s.t1) s.t2) ∧
  (inCSOf s.t1 = true →
    writes tr = wrote .t2 0 s.t2 ++ wrote .t1 (sleptOf s.t2) s.t1) ∧
  (inCSOf s.t1 = false → inCSOf s.t2 = false →
    writes tr = wrote .t1 0 s.t1 ++ wrote .t2 (sleptOf s.t1) s.t2 ∨
    writes tr = wrote .t2 0 s.t2 ++ wrote .t1 (sleptOf s.t2) s.t1)

/-! ## Console lines -/

/-- Split console text into its newline-terminated lines; `cur` holds the
characters of the line being read, last one first. -/
def splitLines : List Char → List Char → List String
  | [], cur => if cur.isEmpty then [] else [String.mk cur.reverse]
  | c :: cs, cur =>
    if c = '\n' then String.mk cur.reverse :: splitLines cs []
    else splitLines cs (c :: cur)

/-- The lines of a console text. -/
def consoleLines (out : String) : List String := splitLines out.data []

/-! ## Progress -/

/-- Whether an actor can move in a state. -/
def enabled (a : Actor) (s : State) : Bool := (step a s).isSome

/-- Whether a thread slot is blocked inside `sleep_for`. -/
def asleepOf : Option Thread → Bool
  | none => false
  | some t => t.pc == .asleep

/-- The six insertions of one run of `driveCar` by worker `w`, as events. -/
def lineEvents (w : Worker) : List Event :=
  [.write w w.name, .write w " is driving", .write w endl,
   .write w w.name, .write w " is done driving", .write w endl]

/-- Number of insertions a thread slot has performed. -/
def writtenOf : Option Thread → Nat
  | none => 0
  | some t => t.pc.written

/-- Whether the event starts a thread. -/
def Event.isSpawn : Event → Bool
  | .spawn _ _ => true
  | _ => false

/-- The thread starts of a trace, in order. -/
def spawns (tr : List Stamped) : List Event :=
  (tr.map (fun x => x.ev)).filter Event.isSpawn

/-! ## One thread running alone -/

/-- A state in which only worker `w` exists, freshly started on
`driveCar name`, with the mutex free, `out` already on the console and the
clock at `t0`. -/
def soloState (w : Worker) (name out : String) (t0 : Nat) : State :=
  ({ init with cout := out, now := t0 } : State).setThr w (Thread.start name)

/-- One step of a thread running alone: the thread moves when it can, and the
clock ticks when the thread is waiting in `sleep_for`. -/
def soloStep (w : Worker) (s : State) : Option (Event × State) :=
  match step (.thread w) s with
  | some r => some r
  | none => step .time s

/-- Run worker `w` alone for at most `fuel` steps, until it cannot move. -/
def soloRun (w : Worker) : Nat → State → List Stamped × State
  | 0, s => ([], s)
  | fuel + 1, s =>
    match soloStep w s with
    | none => ([], s)
    | some (e, s') => (⟨s.now, e⟩ :: (soloRun w fuel s').1, (soloRun w fuel s').2)

/-- The time-stamped events of one run of `driveCar name` started at `t0`. -/
def soloTrace (w : Worker) (name : String) (t0 : Nat) : List Stamped :=
  [⟨t0, .acquire w⟩,
   ⟨t0, .write w name⟩, ⟨t0, .write w " is driving"⟩, ⟨t0, .write w endl⟩,
   ⟨t0, .sleepStart w 2⟩, ⟨t0, .tick⟩, ⟨t0 + 1, .tick⟩, ⟨t0 + 2, .wakeUp w⟩,
   ⟨t0 + 2, .write w name⟩, ⟨t0 + 2, .write w " is done driving"⟩, ⟨t0 + 2, .write w endl⟩,
   ⟨t0 + 2, .release w⟩,
   ⟨t0 + 2, .finish w⟩]

/-- The state one run of `driveCar name` ends in. -/
def soloFinal (w : Worker) (name out : String) (t0 : Nat) : State :=
  ({ init with
      cout := out ++ name ++ " is driving" ++ endl ++ name ++ " is done driving" ++ endl,
      now := t0 + 2 } : State).setThr w
    { pc := .done, driverName := name, carLockOwns := false, wake := t0 + 2, joined := false }

/-! ## The state invariant is preserved -/

theorem sinv_init : SInv init := by
  simp [SInv, init, MainOk, ThreadOk, elapsed]

theorem sinv_main {s s' : State} {e : Event}
    (hi : SInv s) (h : mainStep s = some (e, s')) : SInv s' := by
  obtain ⟨main, t1, t2, mtx, cout, now, ec, ab⟩ := s
  obtain ⟨hab, hm, h1, h2, hc⟩ := hi
  simp only at hab h1 h2 hc
  subst hab
  cases main <;> cases t1 <;> cases t2 <;>
    simp [mainStep, joinStep, joinable, State.thr, State.setThr, MainOk] at h hm
  all_goals (try split at h)
  all_goals first
    | obtain ⟨rfl, rfl⟩ := h
    | obtain ⟨hp, rfl, rfl⟩ := h
  · exact ⟨rfl, by simp [MainOk, joinable, Thread.start, hm],
      by simpa [ThreadOk, Thread.start, Worker.name, Pc.inCS] using h1, h2,
      by simpa [elapsed, Thread.start, Pc.slept] using hc⟩
  · exact ⟨rfl, by simp [MainOk, joinable, Thread.start, hm], h1,
      by simpa [ThreadOk, Thread.start, Worker.name, Pc.inCS] using h2,
      by simpa [elapsed, Thread.start, Pc.slept] using hc⟩
  · exact ⟨rfl, by simp [MainOk, joinable, hm],
      by simpa [ThreadOk, hp] using h1, h2, by simpa [elapsed] using hc⟩
  · exact ⟨rfl, by simp [MainOk, joinable, hm], h1,
      by simpa [ThreadOk, hp] using h2, by simpa [elapsed] using hc⟩
  · rename_i hj
    simp [hm] at hj
  · exact ⟨rfl, by simp [MainOk, joinable, hm], h1, h2, hc⟩

theorem MainOk.congr {s s' : State} (h : MainOk s) (hmain : s'.main = s.main)
    (h1 : s'.t1.isSome = s.t1.isSome) (h2 : s'.t2.isSome = s.t2.isSome)
    (hj1 : joinable s'.t1 = joinable s.t1) (hj2 : joinable s'.t2 = joinable s.t2)
    (hec : s'.exitCode = s.exitCode) : MainOk s' := by
  obtain ⟨main, t1, t2, mtx, cout, now, ec, ab⟩ := s
  obtain ⟨main', t1', t2', mtx', cout', now', ec', ab'⟩ := s'
  simp only at hmain h1 h2 hj1 hj2 hec
  subst hmain hec
  cases main' <;> cases t1 <;> cases t2 <;> cases t1' <;> cases t2' <;>
    simp_all [MainOk]

theorem ThreadOk.frame {mtx mtx' : Option Worker} {now : Nat} {w : Worker}
    {o : Option Thread} (h : ThreadOk mtx now w o)
    (hm : mtx' = some w ↔ mtx = some w) : ThreadOk mtx' now w o := by
  cases o with
  | none => simpa [ThreadOk, hm] using h
  | some t => simpa [ThreadOk, hm] using h

theorem elapsed_some (now : Nat) (t : Thread) :
    elapsed now (some t) = if t.pc = .asleep then now + sleepSeconds - t.wake else t.pc.slept :=
  rfl

theorem threadOk_some (mtx : Option Worker) (now : Nat) (w : Worker) (t : Thread) :
    ThreadOk mtx now w (some t) ↔
      (t.driverName = w.name ∧ t.carLockOwns = t.pc.inCS ∧
        (mtx = some w ↔ t.pc.inCS = true) ∧
        (t.joined = true → t.pc = .done) ∧
        (t.pc = .asleep → now ≤ t.wake ∧ t.wake ≤ now + sleepSeconds)) :=
  Iff.rfl

theorem sinv_thread {w : Worker} {t : Thread} {s s' : State} {e : Event}
    (hi : SInv s) (ht : s.thr w = some t) (h : driveCar w t s = some (e, s')) : SInv s' := by
  obtain ⟨main, t1, t2, mtx, cout, now, ec, ab⟩ := s
  obtain ⟨hab, hm, h1, h2, hc⟩ := hi
  simp only at hab h1 h2 hc
  subst hab
  obtain ⟨pc, nm, ow, wk, jn⟩ := t
  cases w <;> simp only [State.thr] at ht <;> subst ht <;> cases pc <;>
    simp only [driveCar, State.setThr] at h
  all_goals (try split at h)
  all_goals simp only [Option.some.injEq, Prod.mk.injEq, reduceCtorEq] at h
  all_goals first
    | exact h.elim
    | obtain ⟨rfl, rfl⟩ := h
  all_goals simp [threadOk_some, Pc.inCS, Worker.name, sleepSeconds] at h1 h2
  all_goals simp [elapsed_some, Pc.slept, sleepSeconds] at hc
  all_goals try (rename_i hx; first | (simp [h1] at hx; done) | (simp [h2] at hx; done))
  all_goals first
    | refine ⟨rfl, hm.congr rfl rfl rfl rfl rfl rfl, ?_, h2.frame ?_, ?_⟩
    | refine ⟨rfl, hm.congr rfl rfl rfl rfl rfl rfl, h1.frame ?_, ?_, ?_⟩
  all_goals first
    | (simp [threadOk_some, Pc.inCS, Worker.name, sleepSeconds, elapsed_some, Pc.slept, h1, h2]; done)
    | (simp [threadOk_some, Pc.inCS, Worker.name, sleepSeconds, elapsed_some, Pc.slept, h1, h2]; omega)

theorem sinv_time {s s' : State} {e : Event}
    (hi : SInv s) (h : timeStep s = some (e, s')) : SInv s' := by
  obtain ⟨main, t1, t2, mtx, cout, now, ec, ab⟩ := s
  obtain ⟨hab, hm, h1, h2, hc⟩ := hi
  simp only at hab h1 h2 hc
  subst hab
  simp only [timeStep] at h
  split at h
  · rename_i hs
    simp only [Option.some.injEq, Prod.mk.injEq] at h
    obtain ⟨rfl, rfl⟩ := h
    have hx : ∀ a b : Thread, t1 = some a → t2 = some b → a.pc = .asleep → b.pc = .asleep →
        False := by
      intro a b ha hb hpa hpb
      subst ha hb
      rw [threadOk_some] at h1 h2
      have e1 := h1.2.2.1.2 (by rw [hpa]; rfl)
      have e2 := h2.2.2.1.2 (by rw [hpb]; rfl)
      rw [e1] at e2
      exact absurd e2 (by decide)
    refine ⟨rfl, hm.congr rfl rfl rfl rfl rfl rfl, ?_, ?_, ?_⟩
    all_goals
      rcases t1 with _ | a <;> rcases t2 with _ | b <;>
      simp only [sleeping, threadOk_some, ThreadOk, elapsed_some, elapsed, sleepSeconds,
        Bool.or_eq_true, Bool.and_eq_true, beq_iff_eq, decide_eq_true_eq, Bool.false_eq_true,
        false_or, or_false, add_zero, zero_add] at hs h1 h2 hc hx ⊢
    all_goals first
      | assumption
      | exact hs.elim
      | (have hx' := hx a b rfl rfl
         by_cases hpa : a.pc = .asleep <;> by_cases hpb : b.pc = .asleep <;>
           simp only [hpa, hpb, true_and, false_and, or_false, false_or, if_true, if_false,
             true_implies, false_implies, imp_false, not_true, not_false_iff] at hs h1 h2 hc hx' ⊢ <;>
           first
             | omega
             | exact ⟨h1.1, h1.2.1, h1.2.2.1, h1.2.2.2.1, by omega, by omega⟩
             | exact ⟨h2.1, h2.2.1, h2.2.2.1, h2.2.2.2.1, by omega, by omega⟩
             | exact ⟨h1.1, h1.2.1, h1.2.2.1, h1.2.2.2⟩
             | exact ⟨h2.1, h2.2.1, h2.2.2.1, h2.2.2.2⟩)
      | (by_cases hpa : a.pc = .asleep <;>
           simp only [hpa, true_and, false_and, if_true, if_false,
             true_implies, false_implies] at hs h1 hc ⊢ <;>
           first
             | omega
             | exact ⟨h1.1, h1.2.1, h1.2.2.1, h1.2.2.2.1, by omega, by omega⟩)
      | (by_cases hpb : b.pc = .asleep <;>
           simp only [hpb, true_and, false_and, if_true, if_false,
             true_implies, false_implies] at hs h2 hc ⊢ <;>
           first
             | omega
             | exact ⟨h2.1, h2.2.1, h2.2.2.1, h2.2.2.2.1, by omega, by omega⟩)
  · exact absurd h (by simp)

theorem sinv_step {a : Actor} {s s' : State} {e : Event}
    (hi : SInv s) (h : step a s = some (e, s')) : SInv s' := by
  have hab := hi.1
  simp only [step, hab, Bool.false_eq_true, if_false] at h
  cases a with
  | main => exact sinv_main hi h
  | thread w =>
    cases ht : s.thr w with
    | none => simp [ht] at h
    | some t =>
      simp only [ht] at h
      exact sinv_thread hi ht h
  | time => exact sinv_time hi h

theorem reach_sinv {tr : List Stamped} {s : State} (h : Reach tr s) : SInv s := by
  induction h with
  | start => exact sinv_init
  | next _ hs ih => exact sinv_step ih hs

/-! ## Bookkeeping of traces -/

theorem writes_snoc (tr : List Stamped) (x : Stamped) :
    writes (tr ++ [x]) = writes tr ++ (if x.ev.isWrite then [x] else []) := by
  simp only [writes, List.filter_append, List.filter_cons, List.filter_nil]

theorem proj_snoc (a : Actor) (tr : List Stamped) (x : Stamped) :
    proj a (tr ++ [x]) = proj a tr ++ (if x.ev.actor = a then [x.ev] else []) := by
  simp only [proj, List.map_append, List.map_cons, List.map_nil, List.filter_append,
    List.filter_cons, List.filter_nil, decide_eq_true_eq]

theorem textOf_append (xs ys : List Stamped) : textOf (xs ++ ys) = textOf xs ++ textOf ys := by
  induction xs with
  | nil => simp [textOf]
  | cons x xs ih => simp [textOf, ih, String.append_assoc]

theorem pinv_init : PInv [] init := by
  simp [PInv, init, proj, writes, textOf, idxOf, MainPc.idx]

theorem pinv_main {tr : List Stamped} {s s' : State} {e : Event}
    (hi : SInv s) (hp : PInv tr s) (h : mainStep s = some (e, s')) :
    PInv (tr ++ [⟨s.now, e⟩]) s' := by
  obtain ⟨main, t1, t2, mtx, cout, now, ec, ab⟩ := s
  obtain ⟨hab, hm, h1, h2, hc⟩ := hi
  obtain ⟨p1, p2, p3, p4, p5, p6⟩ := hp
  simp only at hab h1 h2 hc p1 p2 p3 p4 p5 p6
  subst hab
  cases main <;> cases t1 <;> cases t2 <;>
    simp [mainStep, joinStep, joinable, State.thr, State.setThr, MainOk] at h hm
  all_goals (try split at h)
  all_goals first
    | obtain ⟨rfl, rfl⟩ := h
    | obtain ⟨hp, rfl, rfl⟩ := h
  all_goals try (rename_i hj; simp [hm] at hj; done)
  all_goals
    simp only [PInv, proj_snoc, writes_snoc, textOf_append, Event.actor, Event.isWrite,
      p1, p2, p3, p4, p5, p6, idxOf, Thread.start, Pc.idx, MainPc.idx, mainScript]
  all_goals simp [textOf, idxOf, Pc.idx, MainPc.idx] at p6 ⊢
  all_goals omega

theorem idxOf_some (t : Thread) : idxOf (some t) = t.pc.idx := rfl

theorem pinv_thread {tr : List Stamped} {w : Worker} {t : Thread} {s s' : State} {e : Event}
    (hi : SInv s) (hp : PInv tr s) (ht : s.thr w = some t)
    (h : driveCar w t s = some (e, s')) : PInv (tr ++ [⟨s.now, e⟩]) s' := by
  obtain ⟨main, t1, t2, mtx, cout, now, ec, ab⟩ := s
  obtain ⟨hab, hm, h1, h2, hc⟩ := hi
  obtain ⟨p1, p2, p3, p4, p5, p6⟩ := hp
  simp only at hab h1 h2 hc p1 p2 p3 p4 p5 p6
  subst hab
  obtain ⟨pc, nm, ow, wk, jn⟩ := t
  cases w <;> simp only [State.thr] at ht <;> subst ht <;> cases pc <;>
    simp only [driveCar, State.setThr] at h
  all_goals (try split at h)
  all_goals simp only [Option.some.injEq, Prod.mk.injEq, reduceCtorEq] at h
  all_goals first
    | exact h.elim
    | obtain ⟨rfl, rfl⟩ := h
  all_goals simp [threadOk_some, Pc.inCS, Worker.name, sleepSeconds] at h1 h2
  all_goals try (rename_i hx; first | (simp [h1] at hx; done) | (simp [h2] at hx; done))
  all_goals first
    | (have hn := h1.1; subst hn)
    | (have hn := h2.1; subst hn)
  all_goals simp [idxOf_some, Pc.idx, script, Worker.name] at p1 p2 p6
  all_goals
    simp [PInv, proj_snoc, writes_snoc, textOf_append, Event.actor, Event.isWrite,
      p1, p2, p3, p4, p5, p6, idxOf_some, Pc.idx, script, Worker.name, textOf, Event.text]
  all_goals omega

theorem pinv_time {tr : List Stamped} {s s' : State} {e : Event}
    (hp : PInv tr s) (h : timeStep s = some (e, s')) : PInv (tr ++ [⟨s.now, e⟩]) s' := by
  obtain ⟨main, t1, t2, mtx, cout, now, ec, ab⟩ := s
  obtain ⟨p1, p2, p3, p4, p5, p6⟩ := hp
  simp only at p1 p2 p3 p4 p5 p6
  simp only [timeStep] at h
  split at h
  · simp only [Option.some.injEq, Prod.mk.injEq] at h
    obtain ⟨rfl, rfl⟩ := h
    simp [PInv, proj_snoc, writes_snoc, textOf_append, Event.actor, Event.isWrite,
      p1, p2, p3, p4, p5, p6, textOf, List.replicate_succ']
    omega
  · exact absurd h (by simp)

theorem step_not_aborted {a : Actor} {s s' : State} {e : Event} (h : step a s = some (e, s')) :
    s.aborted = false := by
  cases hab : s.aborted with
  | false => rfl
  | true => simp [step, hab] at h

theorem pinv_step {tr : List Stamped} {a : Actor} {s s' : State} {e : Event}
    (hi : SInv s) (hp : PInv tr s) (h : step a s = some (e, s')) :
    PInv (tr ++ [⟨s.now, e⟩]) s' := by
  have hab := hi.1
  simp only [step, hab, Bool.false_eq_true, if_false] at h
  cases a with
  | main => exact pinv_main hi hp h
  | thread w =>
    cases ht : s.thr w with
    | none => simp [ht] at h
    | some t =>
      simp only [ht] at h
      exact pinv_thread hi hp ht h
  | time => exact pinv_time hp h

theorem reach_pinv {tr : List Stamped} {s : State} (h : Reach tr s) : PInv tr s := by
  induction h with
  | start => exact pinv_init
  | next hr hs ih => exact pinv_step (reach_sinv hr) ih hs

/-! ## Shape of the insertion log -/

theorem wrote_some (w : Worker) (t0 : Nat) (t : Thread) :
    wrote w t0 (some t) = (block w w.name t0).take t.pc.written := rfl

theorem sleptOf_some (t : Thread) : sleptOf (some t) = t.pc.slept := rfl

theorem inCSOf_some (t : Thread) : inCSOf (some t) = t.pc.inCS := rfl

theorem ThreadOk.inCS_iff {mtx : Option Worker} {now : Nat} {w : Worker} {o : Option Thread}
    (h : ThreadOk mtx now w o) : inCSOf o = true ↔ mtx = some w := by
  cases o with
  | none => simpa [inCSOf, ThreadOk] using h
  | some t => exact h.2.2.1.symm

theorem elapsed_eq_slept {now : Nat} {o : Option Thread} (h : inCSOf o = false) :
    elapsed now o = sleptOf o := by
  cases o with
  | none => rfl
  | some t =>
    have : t.pc ≠ .asleep := by
      intro hp
      simp [inCSOf, hp, Pc.inCS] at h
    simp [elapsed, sleptOf, this]

theorem winv_init : WInv [] init := by
  simp [WInv, init, writes, wrote, inCSOf]

theorem winv_thread {tr : List Stamped} {w : Worker} {t : Thread} {s s' : State} {e : Event}
    (hi : SInv s) (hp : WInv tr s) (ht : s.thr w = some t)
    (h : driveCar w t s = some (e, s')) : WInv (tr ++ [⟨s.now, e⟩]) s' := by
  obtain ⟨main, t1, t2, mtx, cout, now, ec, ab⟩ := s
  obtain ⟨hab, hm, h1, h2, hc⟩ := hi
  obtain ⟨w1, w2, w3⟩ := hp
  simp only at hab h1 h2 hc w1 w2 w3
  subst hab
  have q1 := h1.inCS_iff
  have q2 := h2.inCS_iff
  obtain ⟨pc, nm, ow, wk, jn⟩ := t
  cases w <;> simp only [State.thr] at ht <;> subst ht <;> cases pc <;>
    simp only [driveCar, State.setThr] at h
  all_goals (try split at h)
  all_goals simp only [Option.some.injEq, Prod.mk.injEq, reduceCtorEq] at h
  all_goals first
    | exact h.elim
    | obtain ⟨rfl, rfl⟩ := h
  all_goals simp [threadOk_some, Pc.inCS, Worker.name, sleepSeconds] at h1 h2
  all_goals try (rename_i hx; first | (simp [h1] at hx; done) | (simp [h2] at hx; done))
  all_goals first
    | (have hn := h1.1; subst hn)
    | (have hn := h2.1; subst hn)
  all_goals simp [inCSOf_some, Pc.inCS, h1, h2] at q1 q2
  all_goals try rw [elapsed_eq_slept q2] at hc
  all_goals try rw [elapsed_eq_slept q1] at hc
  all_goals simp [elapsed_some, Pc.slept, sleepSeconds] at hc
  all_goals try subst hc
  all_goals first
    | (simp [inCSOf_some, wrote_some, sleptOf_some, Pc.inCS, Pc.written, Pc.slept, block,
        Worker.name, sleepSeconds, q1, q2] at w1 w2 w3
       simp [WInv, writes_snoc, Event.isWrite, inCSOf_some, wrote_some, sleptOf_some,
        Pc.inCS, Pc.written, Pc.slept, block, Worker.name, sleepSeconds, q1, q2, w1, w2, w3]
       done)
    | (simp [inCSOf_some, wrote_some, sleptOf_some, Pc.inCS, Pc.written, Pc.slept, block,
        Worker.name, sleepSeconds, q1, q2] at w1 w2 w3
       simp [WInv, writes_snoc, Event.isWrite, inCSOf_some, wrote_some, sleptOf_some,
        Pc.inCS, Pc.written, Pc.slept, block, Worker.name, sleepSeconds, q1, q2, w1, w2, w3]
       omega)
    | (simp [inCSOf_some, wrote_some, sleptOf_some, Pc.inCS, Pc.written, Pc.slept, block,
        Worker.name, sleepSeconds] at w1 w2 w3
       simp [WInv, writes_snoc, Event.isWrite, inCSOf_some, wrote_some, sleptOf_some,
        Pc.inCS, Pc.written, Pc.slept, block, Worker.name, sleepSeconds]
       exact ⟨w1, w3⟩)
    | (simp [inCSOf_some, wrote_some, sleptOf_some, Pc.inCS, Pc.written, Pc.slept, block,
        Worker.name, sleepSeconds] at w1 w2 w3
       simp [WInv, writes_snoc, Event.isWrite, inCSOf_some, wrote_some, sleptOf_some,
        Pc.inCS, Pc.written, Pc.slept, block, Worker.name, sleepSeconds]
       exact ⟨w2, w3⟩)

theorem winv_main {tr : List Stamped} {s s' : State} {e : Event}
    (hi : SInv s) (hp : WInv tr s) (h : mainStep s = some (e, s')) :
    WInv (tr ++ [⟨s.now, e⟩]) s' := by
  obtain ⟨main, t1, t2, mtx, cout, now, ec, ab⟩ := s
  have hm := hi.2.1
  cases main <;> simp only [mainStep, joinStep, State.thr, State.setThr] at h <;>
    simp only [MainOk] at hm
  all_goals (try split at h)
  all_goals (try split at h)
  all_goals simp only [Option.some.injEq, Prod.mk.injEq, reduceCtorEq] at h
  all_goals first
    | exact h.elim
    | obtain ⟨rfl, rfl⟩ := h
  · obtain ⟨rfl, rfl, -⟩ := hm
    simpa [WInv, writes_snoc, Event.isWrite, inCSOf_some, wrote_some, sleptOf_some,
      Thread.start, Pc.inCS, Pc.written, Pc.slept, wrote, inCSOf, sleptOf] using hp
  · obtain ⟨-, rfl, -⟩ := hm
    have e1 : wrote .t2 (sleptOf t1) none = [] := rfl
    have e2 : wrote .t2 0 none = [] := rfl
    have e3 : sleptOf (none : Option Thread) = 0 := rfl
    have e4 : inCSOf (none : Option Thread) = false := rfl
    simpa [WInv, writes_snoc, Event.isWrite, inCSOf_some, wrote_some, sleptOf_some,
      Thread.start, Pc.inCS, Pc.written, Pc.slept, e1, e2, e3, e4] using hp
  · simpa [WInv, writes_snoc, Event.isWrite, inCSOf_some, wrote_some, sleptOf_some] using hp
  · simpa [WInv, writes_snoc, Event.isWrite, inCSOf_some, wrote_some, sleptOf_some] using hp
  · simpa [WInv, writes_snoc, Event.isWrite] using hp
  · simpa [WInv, writes_snoc, Event.isWrite] using hp

theorem winv_time {tr : List Stamped} {s s' : State} {e : Event}
    (hp : WInv tr s) (h : timeStep s = some (e, s')) : WInv (tr ++ [⟨s.now, e⟩]) s' := by
  simp only [timeStep] at h
  split at h
  · simp only [Option.some.injEq, Prod.mk.injEq] at h
    obtain ⟨rfl, rfl⟩ := h
    simpa [WInv, writes_snoc, Event.isWrite] using hp
  · exact absurd h (by simp)

theorem winv_step {tr : List Stamped} {a : Actor} {s s' : State} {e : Event}
    (hi : SInv s) (hp : WInv tr s) (h : step a s = some (e, s')) :
    WInv (tr ++ [⟨s.now, e⟩]) s' := by
  have hab := hi.1
  simp only [step, hab, Bool.false_eq_true, if_false] at h
  cases a with
  | main => exact winv_main hi hp h
  | thread w =>
    cases ht : s.thr w with
    | none => simp [ht] at h
    | some t =>
      simp only [ht] at h
      exact winv_thread hi hp ht h
  | time => exact winv_time hp h

theorem reach_winv {tr : List Stamped} {s : State} (h : Reach tr s) : WInv tr s := by
  induction h with
  | start => exact winv_init
  | next hr hs ih => exact winv_step (reach_sinv hr) ih hs

/-! ## Executions are reachable -/

/-- Connect the executable runner to reachability. -/
theorem exec_reach_from {sched : List Actor} {s0 s : State} {tr0 tr : List Stamped}
    (h0 : Reach tr0 s0) (h : exec sched s0 = some (tr, s)) : Reach (tr0 ++ tr) s := by
  induction sched generalizing s0 tr0 tr with
  | nil =>
    simp only [exec, Option.some.injEq, Prod.mk.injEq] at h
    obtain ⟨rfl, rfl⟩ := h
    simpa using h0
  | cons a rest ih =>
    simp only [exec] at h
    cases hs : step a s0 with
    | none => simp [hs] at h
    | some r =>
      obtain ⟨e, s1⟩ := r
      simp only [hs] at h
      cases hr : exec rest s1 with
      | none => simp [hr] at h
      | some r2 =>
        obtain ⟨tr2, s2⟩ := r2
        simp only [hr, Option.some.injEq, Prod.mk.injEq] at h
        obtain ⟨rfl, rfl⟩ := h
        have := ih (Reach.next h0 hs) hr
        simpa using this

theorem exec_reach {sched : List Actor} {s : State} {tr : List Stamped}
    (h : exec sched init = some (tr, s)) : Reach tr s := by
  simpa using exec_reach_from Reach.start h

theorem exec_length {sched : List Actor} {s0 s : State} {tr : List Stamped}
    (h : exec sched s0 = some (tr, s)) : tr.length = sched.length := by
  induction sched generalizing s0 tr with
  | nil =>
    simp only [exec, Option.some.injEq, Prod.mk.injEq] at h
    obtain ⟨rfl, rfl⟩ := h
    rfl
  | cons a rest ih =>
    simp only [exec] at h
    cases hs : step a s0 with
    | none => simp [hs] at h
    | some r =>
      obtain ⟨e, s1⟩ := r
      simp only [hs] at h
      cases hr : exec rest s1 with
      | none => simp [hr] at h
      | some r2 =>
        obtain ⟨tr2, s2⟩ := r2
        simp only [hr, Option.some.injEq, Prod.mk.injEq] at h
        obtain ⟨rfl, rfl⟩ := h
        simp [ih hr]

/-! ## The sample runs -/

theorem exec_mid : exec schedMid init = some (traceMid, stateMid) := by decide

theorem exec_atibiFirst :
    exec schedAtibiFirst init = some (traceAtibiFirst, finalAtibiFirst) := by decide

theorem exec_mohamedFirst :
    exec schedMohamedFirst init = some (traceMohamedFirst, finalMohamedFirst) := by decide

/-- The clock by itself does not serialize sleeps: from `bothAsleep` two ticks
are enough for both threads to wake up. -/
theorem clock_allows_overlap :
    ∃ tr s, exec [.time, .time, .thread .t1, .thread .t2] bothAsleep = some (tr, s) ∧
      s.now = 2 ∧ asleepOf s.t1 = false ∧ asleepOf s.t2 = false :=
  ⟨_, _, rfl, rfl, rfl, rfl⟩

/-! ## Progress and bounds -/

theorem enabled_iff {a : Actor} {s : State} :
    enabled a s = true ↔ ∃ e s', step a s = some (e, s') := by
  unfold enabled
  cases step a s with
  | none => simp
  | some r => exact ⟨fun _ => ⟨r.1, r.2, rfl⟩, fun _ => rfl⟩

/-- A started thread that has not returned can move, or the clock can, unless
it waits at `lock` for a mutex that is taken. -/
theorem thread_can_move {s : State} {w : Worker} {t : Thread} (hi : SInv s)
    (ht : s.thr w = some t) (hd : t.pc ≠ .done) (hl : t.pc = .lock → s.carMutex = none) :
    enabled (.thread w) s = true ∨ enabled .time s = true := by
  obtain ⟨main, t1, t2, mtx, cout, now, ec, ab⟩ := s
  obtain ⟨hab, hm, h1, h2, hc⟩ := hi
  simp only at hab h1 h2 hc hl
  subst hab
  obtain ⟨pc, nm, ow, wk, jn⟩ := t
  cases w <;> simp only [State.thr] at ht <;> subst ht <;> cases pc <;>
    simp [threadOk_some, Pc.inCS] at h1 h2 hd hl <;>
    simp [enabled, step, State.thr, driveCar, timeStep, sleeping, h1, h2, hl]
  all_goals omega

theorem SInv.thread {s : State} (hi : SInv s) (w : Worker) :
    ThreadOk s.carMutex s.now w (s.thr w) := by
  cases w
  · exact hi.2.2.1
  · exact hi.2.2.2.1

/-- The holder of the mutex is a started thread inside its critical section. -/
theorem holder_inCS {s : State} (hi : SInv s) {w : Worker} (hm : s.carMutex = some w) :
    ∃ t, s.thr w = some t ∧ t.pc.inCS = true := by
  have h := hi.thread w
  cases ht : s.thr w with
  | none =>
    rw [ht] at h
    exact absurd hm h
  | some t =>
    rw [ht, threadOk_some] at h
    exact ⟨t, rfl, h.2.2.1.1 hm⟩

theorem unreturned_thread_progress {s : State} {w : Worker} {t : Thread} (hi : SInv s)
    (ht : s.thr w = some t) (hd : t.pc ≠ .done) : ∃ a, enabled a s = true := by
  by_cases hl : t.pc = .lock → s.carMutex = none
  · rcases thread_can_move hi ht hd hl with h | h
    · exact ⟨_, h⟩
    · exact ⟨_, h⟩
  · simp only [Classical.not_imp] at hl
    obtain ⟨hpc, hmx⟩ := hl
    cases hm : s.carMutex with
    | none => exact absurd hm hmx
    | some v =>
      obtain ⟨b, hb, hcs⟩ := holder_inCS hi hm
      have hbd : b.pc ≠ .done := by
        intro hx
        rw [hx] at hcs
        exact absurd hcs (by decide)
      have hbl : b.pc = .lock → s.carMutex = none := by
        intro hx
        rw [hx] at hcs
        exact absurd hcs (by decide)
      rcases thread_can_move hi hb hbd hbl with h | h
      · exact ⟨_, h⟩
      · exact ⟨_, h⟩

/-- Progress: as long as `main` has not returned, some actor can move. -/
theorem progress {s : State} (hi : SInv s) (hne : s.main ≠ .exited) :
    ∃ a, enabled a s = true := by
  have hab := hi.1
  have hm := hi.2.1
  cases hmain : s.main with
  | spawn1 => exact ⟨.main, by simp [enabled, step, mainStep, hab, hmain]⟩
  | spawn2 => exact ⟨.main, by simp [enabled, step, mainStep, hab, hmain]⟩
  | join1 =>
    simp only [MainOk, hmain] at hm
    cases h1 : s.t1 with
    | none => simp [h1] at hm
    | some a =>
      by_cases hd : a.pc = .done
      · exact ⟨.main, by simp [enabled, step, mainStep, joinStep, State.thr, hab, hmain, h1, hd]⟩
      · exact unreturned_thread_progress (w := .t1) hi h1 hd
  | join2 =>
    simp only [MainOk, hmain] at hm
    cases h2 : s.t2 with
    | none => simp [h2] at hm
    | some b =>
      by_cases hd : b.pc = .done
      · exact ⟨.main, by simp [enabled, step, mainStep, joinStep, State.thr, hab, hmain, h2, hd]⟩
      · exact unreturned_thread_progress (w := .t2) hi h2 hd
  | ret =>
    refine ⟨.main, ?_⟩
    simp only [enabled, step, mainStep, hab, hmain, Bool.false_eq_true, if_false]
    split <;> rfl
  | exited => exact absurd hmain hne

/-- Once both `join`s are behind `main`, both threads have returned. -/
theorem joined_finished {s : State} (hi : SInv s) (h : s.main = .ret ∨ s.main = .exited) :
    finished s.t1 = true ∧ finished s.t2 = true := by
  obtain ⟨main, t1, t2, mtx, cout, now, ec, ab⟩ := s
  obtain ⟨hab, hm, h1, h2, hc⟩ := hi
  simp only at h h1 h2
  rcases h with rfl | rfl <;> rcases t1 with _ | a <;> rcases t2 with _ | b <;>
    simp [MainOk, joinable] at hm <;>
    simp [threadOk_some] at h1 h2 <;>
    simp [finished, h1.2.2.2.1 hm.1, h2.2.2.2.1 hm.2.1]

/-- A state from which `main` still has a thread to wait for. -/
theorem unfinished_not_exited {s : State} (hi : SInv s)
    (h : finished s.t1 = false ∨ finished s.t2 = false) : s.main ≠ .exited := by
  intro hx
  have := joined_finished hi (Or.inr hx)
  rcases h with h | h
  · rw [this.1] at h
    exact absurd h (by decide)
  · rw [this.2] at h
    exact absurd h (by decide)

/-- The clock never passes four seconds. -/
theorem now_le_four {s : State} (hi : SInv s) : s.now ≤ 4 := by
  obtain ⟨main, t1, t2, mtx, cout, now, ec, ab⟩ := s
  obtain ⟨hab, hm, h1, h2, hc⟩ := hi
  simp only at h1 h2 hc ⊢
  have b : ∀ (w : Worker) (o : Option Thread), ThreadOk mtx now w o → elapsed now o ≤ 2 := by
    intro w o ho
    rcases o with _ | t
    · simp [elapsed]
    · rw [threadOk_some] at ho
      rw [elapsed_some]
      split
      · rename_i hp
        have := ho.2.2.2.2 hp
        simp only [sleepSeconds] at this ⊢
        omega
      · cases t.pc <;> simp [Pc.slept]
  have b1 := b _ _ h1
  have b2 := b _ _ h2
  omega

theorem idx_le (pc : Pc) : pc.idx ≤ 11 := by
  cases pc <;> simp [Pc.idx]

theorem idxOf_le (o : Option Thread) : idxOf o ≤ 11 := by
  cases o with
  | none => simp [idxOf]
  | some t => exact idx_le t.pc

theorem mainIdx_le (m : MainPc) : m.idx ≤ 5 := by
  cases m <;> simp [MainPc.idx]

theorem mem_proj {tr : List Stamped} {x : Stamped} (h : x ∈ tr) :
    x.ev ∈ proj x.ev.actor tr := by
  simp only [proj, List.mem_filter, List.mem_map, decide_eq_true_eq, and_true]
  exact ⟨x, h, rfl⟩

/-- No reachable trace contains a `terminate`, and every `exit` event carries
status zero. -/
theorem trace_clean {tr : List Stamped} {s : State} (hp : PInv tr s) {x : Stamped}
    (hx : x ∈ tr) : (∀ a, x.ev ≠ .abort a) ∧ (∀ c, x.ev = .exit c → c = 0) := by
  obtain ⟨p1, p2, p3, p4, -, -⟩ := hp
  have hm := mem_proj hx
  constructor
  · intro a ha
    rw [ha] at hm
    simp only [Event.actor] at hm
    rcases a with _ | w | _
    · rw [p3] at hm
      have := List.mem_of_mem_take hm
      simp [mainScript] at this
    · cases w
      · rw [p1] at hm
        have := List.mem_of_mem_take hm
        simp [script] at this
      · rw [p2] at hm
        have := List.mem_of_mem_take hm
        simp [script] at this
    · rw [p4] at hm
      simp [List.mem_replicate] at hm
  · intro c hc
    rw [hc] at hm
    simp only [Event.actor] at hm
    rw [p3] at hm
    have := List.mem_of_mem_take hm
    simpa [mainScript] using this

theorem holds_eq (s : State) (w : Worker) : s.holds w = inCSOf (s.thr w) := by
  unfold State.holds inCSOf
  cases s.thr w <;> rfl

theorem both_done_now {s : State} (hi : SInv s) (h1 : finished s.t1 = true)
    (h2 : finished s.t2 = true) : s.now = 4 ∧ idxOf s.t1 = 11 ∧ idxOf s.t2 = 11 := by
  obtain ⟨main, t1, t2, mtx, cout, now, ec, ab⟩ := s
  obtain ⟨-, -, -, -, hc⟩ := hi
  simp only at h1 h2 hc ⊢
  rcases t1 with _ | a <;> rcases t2 with _ | b <;> simp [finished] at h1 h2
  simp [elapsed_some, h1, h2, Pc.slept] at hc
  simp [idxOf, h1, h2, Pc.idx, hc]

/-! ## Consequences for the console -/

theorem winv_forms {tr : List Stamped} {s : State} (h : WInv tr s) :
    writes tr = wrote .t1 0 s.t1 ++ wrote .t2 (sleptOf s.t1) s.t2 ∨
    writes tr = wrote .t2 0 s.t2 ++ wrote .t1 (sleptOf s.t2) s.t1 := by
  obtain ⟨w1, w2, w3⟩ := h
  cases h2 : inCSOf s.t2 with
  | true => exact Or.inl (w1 h2)
  | false =>
    cases h1 : inCSOf s.t1 with
    | true => exact Or.inr (w2 h1)
    | false => exact w3 h1 h2

theorem wrote_ev (w : Worker) (t0 : Nat) (o : Option Thread) :
    (wrote w t0 o).map (fun x => x.ev) = (lineEvents w).take (writtenOf o) := by
  rcases o with _ | t
  · rfl
  · simp only [wrote, writtenOf]
    cases t.pc <;> rfl

theorem wrote_actor (w : Worker) (t0 : Nat) (o : Option Thread) :
    ∀ x ∈ wrote w t0 o, x.ev.actor = .thread w := by
  intro x hx
  rcases o with _ | t
  · simp [wrote] at hx
  · have := List.mem_of_mem_take hx
    simp only [block, List.mem_cons, List.mem_singleton, List.not_mem_nil, or_false] at this
    rcases this with rfl | rfl | rfl | rfl | rfl | rfl <;> rfl

theorem wrote_done (w : Worker) (t0 : Nat) {o : Option Thread} (h : finished o = true) :
    wrote w t0 o = block w w.name t0 ∧ sleptOf o = 2 ∧ writtenOf o = 6 := by
  rcases o with _ | t
  · simp [finished] at h
  · simp only [finished, beq_iff_eq] at h
    simp [wrote, sleptOf, writtenOf, h, Pc.written, Pc.slept, block]

theorem textOf_block (w : Worker) (t0 : Nat) :
    textOf (block w w.name t0) =
      w.name ++ " is driving\n" ++ w.name ++ " is done driving\n" := by
  cases w <;> rfl

theorem textOf_atibiFirst :
    textOf (block .t1 Worker.t1.name 0 ++ block .t2 Worker.t2.name 2) = outAtibiFirst := by
  decide

theorem textOf_mohamedFirst :
    textOf (block .t2 Worker.t2.name 0 ++ block .t1 Worker.t1.name 2) = outMohamedFirst := by
  decide

theorem lines_atibiFirst :
    consoleLines outAtibiFirst =
      ["ATIBI is driving", "ATIBI is done driving",
       "Mohamed is driving", "Mohamed is done driving"] := by
  decide

theorem lines_mohamedFirst :
    consoleLines outMohamedFirst =
      ["Mohamed is driving", "Mohamed is done driving",
       "ATIBI is driving", "ATIBI is done driving"] := by
  decide

/-- With both threads returned the insertion log is one whole block after the
other, the first taken at time 0 and the second at time 2. -/
theorem writes_complete {tr : List Stamped} {s : State} (hw : WInv tr s)
    (f1 : finished s.t1 = true) (f2 : finished s.t2 = true) :
    writes tr = block .t1 Worker.t1.name 0 ++ block .t2 Worker.t2.name 2 ∨
    writes tr = block .t2 Worker.t2.name 0 ++ block .t1 Worker.t1.name 2 := by
  rcases winv_forms hw with h | h
  · left
    rw [h, (wrote_done .t1 0 f1).1, (wrote_done .t1 0 f1).2.1, (wrote_done .t2 2 f2).1]
  · right
    rw [h, (wrote_done .t2 0 f2).1, (wrote_done .t2 0 f2).2.1, (wrote_done .t1 2 f1).1]

theorem spawns_eq_proj (tr : List Stamped) :
    spawns tr = (proj .main tr).filter Event.isSpawn := by
  simp only [spawns, proj, List.filter_filter]
  apply List.filter_congr
  intro e _
  cases e <;> simp [Event.isSpawn, Event.actor]

/-! ## Lock events -/

theorem asleep_inCS {o : Option Thread} (h : asleepOf o = true) : inCSOf o = true := by
  rcases o with _ | t
  · simp [asleepOf] at h
  · simp only [asleepOf, beq_iff_eq] at h
    simp [inCSOf, h, Pc.inCS]

theorem proj_thread {tr : List Stamped} {s : State} (hp : PInv tr s) (w : Worker) :
    proj (.thread w) tr = (script w w.name).take (idxOf (s.thr w)) := by
  cases w
  · exact hp.1
  · exact hp.2.1

theorem count_proj (e : Event) (tr : List Stamped) :
    (proj e.actor tr).count e = (tr.map (fun x => x.ev)).count e := by
  unfold proj
  exact List.count_filter (by simp)

theorem count_script (w : Worker) (o : Option Thread) :
    ((script w w.name).take (idxOf o)).count (.release w) ≤
      ((script w w.name).take (idxOf o)).count (.acquire w) ∧
    ((script w w.name).take (idxOf o)).count (.acquire w) ≤ 1 ∧
    (finished o = true →
      ((script w w.name).take (idxOf o)).count (.acquire w) = 1 ∧
      ((script w w.name).take (idxOf o)).count (.release w) = 1) := by
  rcases o with _ | t
  · cases w <;> decide
  · obtain ⟨pc, nm, ow, wk, jn⟩ := t
    simp only [idxOf, finished, beq_iff_eq]
    cases w <;> cases pc <;> decide

/-- Every event is performed by the actor that was scheduled. -/
theorem step_actor {s s' : State} {a : Actor} {e : Event} (h : step a s = some (e, s')) :
    e.actor = a := by
  have hab := step_not_aborted h
  obtain ⟨main, t1, t2, mtx, cout, now, ec, ab⟩ := s
  simp only at hab
  subst hab
  cases a with
  | main =>
    simp only [step, Bool.false_eq_true, if_false] at h
    cases main <;> simp only [mainStep, joinStep, State.thr, State.setThr] at h
    all_goals (try split at h)
    all_goals (try split at h)
    all_goals simp only [Option.some.injEq, Prod.mk.injEq, reduceCtorEq] at h
    all_goals first
      | exact h.elim
      | (obtain ⟨rfl, rfl⟩ := h; rfl)
  | thread w =>
    simp only [step, Bool.false_eq_true, if_false] at h
    split at h
    · exact absurd h (by simp)
    · rename_i t ht
      obtain ⟨pc, nm, ow, wk, jn⟩ := t
      cases pc <;> simp only [driveCar] at h
      all_goals (try split at h)
      all_goals simp only [Option.some.injEq, Prod.mk.injEq, reduceCtorEq] at h
      all_goals first
        | exact h.elim
        | (obtain ⟨rfl, rfl⟩ := h; rfl)
  | time =>
    simp only [step, Bool.false_eq_true, if_false, timeStep] at h
    split at h
    · simp only [Option.some.injEq, Prod.mk.injEq] at h
      obtain ⟨rfl, rfl⟩ := h
      rfl
    · exact absurd h (by simp)

/-- A step that calls `carMutex.unlock()` is the `carLock.unlock()` statement
of the thread that holds the mutex. -/
theorem release_step {s s' : State} {a : Actor} {w : Worker} (hi : SInv s)
    (h : step a s = some (.release w, s')) :
    a = .thread w ∧ s.carMutex = some w ∧ ∃ t, s.thr w = some t ∧ t.pc = .unlock := by
  have ha : a = .thread w := (step_actor h).symm
  subst ha
  refine ⟨rfl, ?_⟩
  have hab := hi.1
  have hw := hi.thread w
  simp only [step, hab, Bool.false_eq_true, if_false] at h
  cases ht : s.thr w with
  | none => simp [ht] at h
  | some t =>
    simp only [ht] at h
    rw [ht, threadOk_some] at hw
    obtain ⟨pc, nm, ow, wk, jn⟩ := t
    cases pc <;> simp only [driveCar] at h
    all_goals (try split at h)
    all_goals simp only [Option.some.injEq, Prod.mk.injEq, reduceCtorEq, false_and] at h
    all_goals simp [Pc.inCS] at hw
    all_goals first
      | exact ⟨hw.2.2.1, _, rfl, rfl⟩
      | (rename_i hx; simp [hw] at hx)

/-! ## One thread running alone: lemmas -/

theorem soloRun_halt (w : Worker) (n : Nat) (s : State) (h : soloStep w s = none) :
    soloRun w n s = ([], s) := by
  cases n with
  | zero => rfl
  | succ n => simp [soloRun, h]

theorem soloRun_more (w : Worker) (n k : Nat) (s s' : State) (tr : List Stamped)
    (h : soloRun w n s = (tr, s')) (hh : soloStep w s' = none) :
    soloRun w (n + k) s = (tr, s') := by
  induction n generalizing s tr with
  | zero =>
    simp only [soloRun, Prod.mk.injEq] at h
    obtain ⟨rfl, rfl⟩ := h
    simpa using soloRun_halt w k s hh
  | succ n ih =>
    rw [show n + 1 + k = (n + k) + 1 by omega]
    simp only [soloRun] at h ⊢
    cases hs : soloStep w s with
    | none =>
      simp only [hs] at h ⊢
      exact h
    | some r =>
      obtain ⟨e, s1⟩ := r
      simp only [hs, Prod.mk.injEq] at h ⊢
      obtain ⟨rfl, rfl⟩ := h
      have := ih s1 _ rfl
      rw [this]
      exact ⟨rfl, rfl⟩

theorem soloRun_thirteen (w : Worker) (name out : String) (t0 : Nat) :
    soloRun w 13 (soloState w name out t0) = (soloTrace w name t0, soloFinal w name out t0) := by
  cases w <;>
    simp [soloRun, soloStep, step, driveCar, timeStep, sleeping, soloState, soloTrace,
      soloFinal, init, State.thr, State.setThr, Thread.start, sleepSeconds]

theorem soloFinal_halt (w : Worker) (name out : String) (t0 : Nat) :
    soloStep w (soloFinal w name out t0) = none := by
  cases w <;>
    simp [soloStep, step, driveCar, timeStep, sleeping, soloFinal, init, State.thr,
      State.setThr]

/-- A thread that can move is not waiting for its deadline: while a thread
runs alone, the choice between its step and a clock tick is never open. -/
theorem thread_step_not_sleeping {s s' : State} {w : Worker} {e : Event}
    (h : step (.thread w) s = some (e, s')) : sleeping s (s.thr w) = false := by
  have hab := step_not_aborted h
  simp only [step, hab, Bool.false_eq_true, if_false] at h
  cases ht : s.thr w with
  | none => rfl
  | some t =>
    simp only [ht] at h
    by_cases hp : t.pc = .asleep
    · simp only [driveCar, hp] at h
      split at h
      · rename_i hle
        simp [sleeping, hp]
        omega
      · exact absurd h (by simp)
    · simp [sleeping, hp]

/-! ## Properties of the program -/

/-- C1, mutual exclusion: in every state reached by any interleaving of
`main`, the two `driveCar` threads and the clock, the two threads are never
both inside their critical sections (after the lock acquisition, up to and
including the point just before `carLock.unlock()`); and `carMutex` is held by
a worker exactly when that worker is inside its critical section. -/
theorem mutual_exclusion (sched : List Actor) (tr : List Stamped) (s : State)
    (h : exec sched init = some (tr, s)) :
    ¬ (s.holds .t1 = true ∧ s.holds .t2 = true) ∧
    ∀ w, s.carMutex = some w ↔ s.holds w = true := by
  have hi := reach_sinv (exec_reach h)
  have key : ∀ w, s.carMutex = some w ↔ s.holds w = true := by
    intro w
    rw [holds_eq]
    exact (hi.thread w).inCS_iff.symm
  refine ⟨?_, key⟩
  rintro ⟨a, b⟩
  have e1 := (key .t1).2 a
  have e2 := (key .t2).2 b
  rw [e1] at e2
  exact absurd e2 (by decide)

/-- Witness for C1: after `schedMid` thread `t1` is inside its critical section
and `t2` is not. -/
theorem mutual_exclusion_witness :
    exec schedMid init = some (traceMid, stateMid) ∧
    stateMid.holds .t1 = true ∧
    (¬ (stateMid.holds .t1 = true ∧ stateMid.holds .t2 = true) ∧
      ∀ w, stateMid.carMutex = some w ↔ stateMid.holds w = true) :=
  ⟨exec_mid, by decide, mutual_exclusion schedMid traceMid stateMid exec_mid⟩

/-- C6, no deadlock and termination: in every reached state in which some
worker has not finished, some step is enabled; every execution has at most 31
steps (5 of `main`, 11 of each thread, 4 clock ticks), one per unit of
progress; and an execution that cannot be extended ends with `main` returned
and both workers finished, after exactly 31 steps. -/
theorem no_deadlock_and_termination (sched : List Actor) (tr : List Stamped) (s : State)
    (h : exec sched init = some (tr, s)) :
    ((finished s.t1 = false ∨ finished s.t2 = false) →
      ∃ a e s', step a s = some (e, s')) ∧
    sched.length = s.main.idx + idxOf s.t1 + idxOf s.t2 + s.now ∧
    sched.length ≤ 31 ∧
    ((∀ a, step a s = none) →
      s.main = .exited ∧ finished s.t1 = true ∧ finished s.t2 = true ∧ sched.length = 31) := by
  have hr := exec_reach h
  have hi := reach_sinv hr
  have hp := reach_pinv hr
  have hlen : sched.length = s.main.idx + idxOf s.t1 + idxOf s.t2 + s.now := by
    rw [← exec_length h]
    exact hp.2.2.2.2.2
  refine ⟨?_, hlen, ?_, ?_⟩
  · intro hu
    obtain ⟨a, ha⟩ := progress hi (unfinished_not_exited hi hu)
    exact ⟨a, enabled_iff.1 ha⟩
  · have := now_le_four hi
    have := idxOf_le s.t1
    have := idxOf_le s.t2
    have := mainIdx_le s.main
    omega
  · intro hstuck
    have hex : s.main = .exited := by
      by_contra hne
      obtain ⟨a, ha⟩ := progress hi hne
      obtain ⟨e, s', hs⟩ := enabled_iff.1 ha
      rw [hstuck a] at hs
      exact absurd hs (by simp)
    obtain ⟨f1, f2⟩ := joined_finished hi (Or.inr hex)
    obtain ⟨n4, i1, i2⟩ := both_done_now hi f1 f2
    refine ⟨hex, f1, f2, ?_⟩
    rw [hlen, hex, i1, i2, n4]
    rfl

/-- Witness for C6: the complete run `schedAtibiFirst` has 31 steps and ends
with `main` returned. -/
theorem no_deadlock_and_termination_witness :
    exec schedAtibiFirst init = some (traceAtibiFirst, finalAtibiFirst) ∧
    schedAtibiFirst.length = 31 ∧ finalAtibiFirst.main = .exited ∧
    (((finished finalAtibiFirst.t1 = false ∨ finished finalAtibiFirst.t2 = false) →
      ∃ a e s', step a finalAtibiFirst = some (e, s')) ∧
    schedAtibiFirst.length =
      finalAtibiFirst.main.idx + idxOf finalAtibiFirst.t1 + idxOf finalAtibiFirst.t2 +
        finalAtibiFirst.now ∧
    schedAtibiFirst.length ≤ 31 ∧
    ((∀ a, step a finalAtibiFirst = none) →
      finalAtibiFirst.main = .exited ∧ finished finalAtibiFirst.t1 = true ∧
        finished finalAtibiFirst.t2 = true ∧ schedAtibiFirst.length = 31)) :=
  ⟨exec_atibiFirst, by decide, by decide,
    no_deadlock_and_termination schedAtibiFirst traceAtibiFirst finalAtibiFirst exec_atibiFirst⟩

/-- C9, exit status: in every reached state no `std::terminate` has happened
and the exit status is either not yet set or zero; once `main` has returned it
is zero; every `exit` event of the trace carries status zero and the trace has
no `terminate` event. -/
theorem exit_status_zero (sched : List Actor) (tr : List Stamped) (s : State)
    (h : exec sched init = some (tr, s)) :
    s.aborted = false ∧
    (s.exitCode = none ∨ s.exitCode = some 0) ∧
    (s.main = .exited ↔ s.exitCode = some 0) ∧
    (∀ x ∈ tr, ∀ c, x.ev = .exit c → c = 0) ∧
    (∀ x ∈ tr, ∀ a, x.ev ≠ .abort a) := by
  have hr := exec_reach h
  have hi := reach_sinv hr
  have hp := reach_pinv hr
  have hm := hi.2.1
  refine ⟨hi.1, ?_, ?_, fun x hx => (trace_clean hp hx).2, fun x hx => (trace_clean hp hx).1⟩
  · unfold MainOk at hm
    cases hmain : s.main <;> simp only [hmain] at hm <;> simp [hm]
  · unfold MainOk at hm
    cases hmain : s.main <;> simp only [hmain] at hm <;> simp [hm]

/-- Witness for C9: the complete run `schedMohamedFirst` returns status 0. -/
theorem exit_status_zero_witness :
    exec schedMohamedFirst init = some (traceMohamedFirst, finalMohamedFirst) ∧
    finalMohamedFirst.exitCode = some 0 ∧
    (finalMohamedFirst.aborted = false ∧
    (finalMohamedFirst.exitCode = none ∨ finalMohamedFirst.exitCode = some 0) ∧
    (finalMohamedFirst.main = .exited ↔ finalMohamedFirst.exitCode = some 0) ∧
    (∀ x ∈ traceMohamedFirst, ∀ c, x.ev = .exit c → c = 0) ∧
    (∀ x ∈ traceMohamedFirst, ∀ a, x.ev ≠ .abort a)) :=
  ⟨exec_mohamedFirst, rfl,
    exit_status_zero schedMohamedFirst traceMohamedFirst finalMohamedFirst exec_mohamedFirst⟩

/-- C2, adjacency of a worker's two lines: in every execution and for each
worker `w`, the insertion log splits as `pre ++ mid ++ post` where `mid` holds
the insertions of `w` so far, in program order (name, " is driving", newline,
name, " is done driving", newline), and everything in `pre` and `post` was
written by the other worker; the console is the text of these three parts in
that order.  Once `w` has finished, `mid` is its two whole lines, "is driving"
first and "is done driving" right after it. -/
theorem lines_adjacent (sched : List Actor) (tr : List Stamped) (s : State)
    (h : exec sched init = some (tr, s)) (w : Worker) :
    ∃ pre mid post : List Stamped,
      writes tr = pre ++ mid ++ post ∧
      mid.map (fun x => x.ev) = (lineEvents w).take (writtenOf (s.thr w)) ∧
      (∀ x ∈ pre ++ post, x.ev.actor = .thread w.other) ∧
      s.cout = textOf pre ++ textOf mid ++ textOf post ∧
      (finished (s.thr w) = true →
        mid.map (fun x => x.ev) = lineEvents w ∧
        textOf mid = w.name ++ " is driving\n" ++ w.name ++ " is done driving\n") := by
  have hr := exec_reach h
  have hw := reach_winv hr
  have hp := reach_pinv hr
  have hc : s.cout = textOf (writes tr) := hp.2.2.2.2.1
  have fin : ∀ (t0 : Nat), finished (s.thr w) = true →
      (wrote w t0 (s.thr w)).map (fun x => x.ev) = lineEvents w ∧
      textOf (wrote w t0 (s.thr w)) =
        w.name ++ " is driving\n" ++ w.name ++ " is done driving\n" := by
    intro t0 hf
    rw [wrote_ev, (wrote_done w t0 hf).2.2, (wrote_done w t0 hf).1, textOf_block]
    exact ⟨rfl, rfl⟩
  rcases winv_forms hw with hf | hf
  · cases w
    · refine ⟨[], wrote .t1 0 s.t1, wrote .t2 (sleptOf s.t1) s.t2, by simpa using hf,
        wrote_ev _ _ _, ?_, ?_, fin 0⟩
      · simpa using wrote_actor .t2 (sleptOf s.t1) s.t2
      · rw [hc, hf, textOf_append]
        simp [textOf]
    · refine ⟨wrote .t1 0 s.t1, wrote .t2 (sleptOf s.t1) s.t2, [], by simpa using hf,
        wrote_ev _ _ _, ?_, ?_, fin _⟩
      · simpa using wrote_actor .t1 0 s.t1
      · rw [hc, hf, textOf_append]
        simp [textOf]
  · cases w
    · refine ⟨wrote .t2 0 s.t2, wrote .t1 (sleptOf s.t2) s.t1, [], by simpa using hf,
        wrote_ev _ _ _, ?_, ?_, fin _⟩
      · simpa using wrote_actor .t2 0 s.t2
      · rw [hc, hf, textOf_append]
        simp [textOf]
    · refine ⟨[], wrote .t2 0 s.t2, wrote .t1 (sleptOf s.t2) s.t1, by simpa using hf,
        wrote_ev _ _ _, ?_, ?_, fin 0⟩
      · simpa using wrote_actor .t1 (sleptOf s.t2) s.t1
      · rw [hc, hf, textOf_append]
        simp [textOf]

/-- Witness for C2: the complete run in which `t2` goes first, for worker `t1`. -/
theorem lines_adjacent_witness :
    exec schedMohamedFirst init = some (traceMohamedFirst, finalMohamedFirst) ∧
    ∃ pre mid post : List Stamped,
      writes traceMohamedFirst = pre ++ mid ++ post ∧
      mid.map (fun x => x.ev) = (lineEvents .t1).take (writtenOf (finalMohamedFirst.thr .t1)) ∧
      (∀ x ∈ pre ++ post, x.ev.actor = .thread Worker.t1.other) ∧
      finalMohamedFirst.cout = textOf pre ++ textOf mid ++ textOf post ∧
      (finished (finalMohamedFirst.thr .t1) = true →
        mid.map (fun x => x.ev) = lineEvents .t1 ∧
        textOf mid =
          Worker.t1.name ++ " is driving\n" ++ Worker.t1.name ++ " is done driving\n") :=
  ⟨exec_mohamedFirst,
    lines_adjacent schedMohamedFirst traceMohamedFirst finalMohamedFirst exec_mohamedFirst .t1⟩

/-- C3, the whole output: when `main` has returned, the console holds exactly
four lines, two per worker, and is one of exactly two texts: ATIBI's two lines
followed by Mohamed's two lines, or Mohamed's two lines followed by ATIBI's. -/
theorem four_lines (sched : List Actor) (tr : List Stamped) (s : State)
    (h : exec sched init = some (tr, s)) (hdone : s.main = .exited) :
    (consoleLines s.cout).length = 4 ∧
    ((s.cout = outAtibiFirst ∧
      (writes tr).map (fun x => x.ev) = lineEvents .t1 ++ lineEvents .t2 ∧
      consoleLines s.cout =
        ["ATIBI is driving", "ATIBI is done driving",
         "Mohamed is driving", "Mohamed is done driving"]) ∨
     (s.cout = outMohamedFirst ∧
      (writes tr).map (fun x => x.ev) = lineEvents .t2 ++ lineEvents .t1 ∧
      consoleLines s.cout =
        ["Mohamed is driving", "Mohamed is done driving",
         "ATIBI is driving", "ATIBI is done driving"])) := by
  have hr := exec_reach h
  have hi := reach_sinv hr
  have hc : s.cout = textOf (writes tr) := (reach_pinv hr).2.2.2.2.1
  obtain ⟨f1, f2⟩ := joined_finished hi (Or.inr hdone)
  rcases writes_complete (reach_winv hr) f1 f2 with hw | hw
  · have hout : s.cout = outAtibiFirst := by rw [hc, hw, textOf_atibiFirst]
    refine ⟨by rw [hout, lines_atibiFirst]; rfl, Or.inl ⟨hout, ?_, ?_⟩⟩
    · rw [hw]
      rfl
    · rw [hout, lines_atibiFirst]
  · have hout : s.cout = outMohamedFirst := by rw [hc, hw, textOf_mohamedFirst]
    refine ⟨by rw [hout, lines_mohamedFirst]; rfl, Or.inr ⟨hout, ?_, ?_⟩⟩
    · rw [hw]
      rfl
    · rw [hout, lines_mohamedFirst]

/-- Witness for C3: the complete run in which `t1` goes first. -/
theorem four_lines_witness :
    exec schedAtibiFirst init = some (traceAtibiFirst, finalAtibiFirst) ∧
    finalAtibiFirst.main = .exited ∧
    ((consoleLines finalAtibiFirst.cout).length = 4 ∧
    ((finalAtibiFirst.cout = outAtibiFirst ∧
      (writes traceAtibiFirst).map (fun x => x.ev) = lineEvents .t1 ++ lineEvents .t2 ∧
      consoleLines finalAtibiFirst.cout =
        ["ATIBI is driving", "ATIBI is done driving",
         "Mohamed is driving", "Mohamed is done driving"]) ∨
     (finalAtibiFirst.cout = outMohamedFirst ∧
      (writes traceAtibiFirst).map (fun x => x.ev) = lineEvents .t2 ++ lineEvents .t1 ∧
      consoleLines finalAtibiFirst.cout =
        ["Mohamed is driving", "Mohamed is done driving",
         "ATIBI is driving", "ATIBI is done driving"]))) :=
  ⟨exec_atibiFirst, rfl,
    four_lines schedAtibiFirst traceAtibiFirst finalAtibiFirst exec_atibiFirst rfl⟩

/-- C5, `main`: the events of `main` are a prefix of "start `t1` on
`driveCar("ATIBI")`, start `t2` on `driveCar("Mohamed")`, join `t1`, join
`t2`, return 0", as long as its program point says, so those two are the only
threads ever started and each runs with its own name; and whenever `main` is
past the two joins both workers have finished and the console holds all four
lines. -/
theorem main_spawns_and_joins (sched : List Actor) (tr : List Stamped) (s : State)
    (h : exec sched init = some (tr, s)) :
    proj .main tr = mainScript.take s.main.idx ∧
    spawns tr = [Event.spawn .t1 "ATIBI", Event.spawn .t2 "Mohamed"].take s.main.idx ∧
    (∀ w t, s.thr w = some t → t.driverName = w.name) ∧
    ((s.main = .ret ∨ s.main = .exited) →
      finished s.t1 = true ∧ finished s.t2 = true ∧
      (s.cout = outAtibiFirst ∨ s.cout = outMohamedFirst) ∧
      (consoleLines s.cout).length = 4) := by
  have hr := exec_reach h
  have hi := reach_sinv hr
  have hp := reach_pinv hr
  have hc : s.cout = textOf (writes tr) := hp.2.2.2.2.1
  refine ⟨hp.2.2.1, ?_, ?_, ?_⟩
  · rw [spawns_eq_proj, hp.2.2.1]
    cases s.main <;> rfl
  · intro w t ht
    have := hi.thread w
    rw [ht, threadOk_some] at this
    exact this.1
  · intro hpast
    obtain ⟨f1, f2⟩ := joined_finished hi hpast
    refine ⟨f1, f2, ?_⟩
    rcases writes_complete (reach_winv hr) f1 f2 with hw | hw
    · have hout : s.cout = outAtibiFirst := by rw [hc, hw, textOf_atibiFirst]
      exact ⟨Or.inl hout, by rw [hout, lines_atibiFirst]; rfl⟩
    · have hout : s.cout = outMohamedFirst := by rw [hc, hw, textOf_mohamedFirst]
      exact ⟨Or.inr hout, by rw [hout, lines_mohamedFirst]; rfl⟩

/-- Witness for C5: the complete run in which `t1` goes first. -/
theorem main_spawns_and_joins_witness :
    exec schedAtibiFirst init = some (traceAtibiFirst, finalAtibiFirst) ∧
    (proj .main traceAtibiFirst = mainScript.take finalAtibiFirst.main.idx ∧
    spawns traceAtibiFirst =
      [Event.spawn .t1 "ATIBI", Event.spawn .t2 "Mohamed"].take finalAtibiFirst.main.idx ∧
    (∀ w t, finalAtibiFirst.thr w = some t → t.driverName = w.name) ∧
    ((finalAtibiFirst.main = .ret ∨ finalAtibiFirst.main = .exited) →
      finished finalAtibiFirst.t1 = true ∧ finished finalAtibiFirst.t2 = true ∧
      (finalAtibiFirst.cout = outAtibiFirst ∨ finalAtibiFirst.cout = outMohamedFirst) ∧
      (consoleLines finalAtibiFirst.cout).length = 4)) :=
  ⟨exec_atibiFirst,
    main_spawns_and_joins schedAtibiFirst traceAtibiFirst finalAtibiFirst exec_atibiFirst⟩

/-- C7, serialized sleeps on the logical clock: the clock is advanced only by
ticks, one per second, which are enabled only while a thread is inside
`sleep_for`; the two threads are never asleep together and a sleeping thread
holds the mutex; the clock never passes 4; and when `main` has returned the
time-stamped insertion log is one worker's block taken at time 0 followed by
the other's taken at time 2, so the first insertion happened at time 0, the
last at time 4, and the clock reads 4 = 2 x 2 seconds. -/
theorem sleeps_serialized (sched : List Actor) (tr : List Stamped) (s : State)
    (h : exec sched init = some (tr, s)) :
    ¬ (asleepOf s.t1 = true ∧ asleepOf s.t2 = true) ∧
    (∀ w, asleepOf (s.thr w) = true → s.carMutex = some w) ∧
    proj .time tr = List.replicate s.now .tick ∧
    s.now ≤ 2 * sleepSeconds ∧
    (s.main = .exited →
      (writes tr = block .t1 "ATIBI" 0 ++ block .t2 "Mohamed" 2 ∨
       writes tr = block .t2 "Mohamed" 0 ++ block .t1 "ATIBI" 2) ∧
      (writes tr).head?.map (fun x => x.time) = some 0 ∧
      (writes tr).getLast?.map (fun x => x.time) = some 4 ∧
      s.now = 2 * sleepSeconds) := by
  have hr := exec_reach h
  have hi := reach_sinv hr
  have hp := reach_pinv hr
  have hold : ∀ w, asleepOf (s.thr w) = true → s.carMutex = some w := fun w hw =>
    (hi.thread w).inCS_iff.1 (asleep_inCS hw)
  refine ⟨?_, hold, hp.2.2.2.1, now_le_four hi, ?_⟩
  · rintro ⟨a, b⟩
    have e1 := hold .t1 a
    have e2 := hold .t2 b
    rw [e1] at e2
    exact absurd e2 (by decide)
  · intro hdone
    obtain ⟨f1, f2⟩ := joined_finished hi (Or.inr hdone)
    have hw := writes_complete (reach_winv hr) f1 f2
    refine ⟨hw, ?_, ?_, (both_done_now hi f1 f2).1⟩
    · rcases hw with hw | hw <;> rw [hw] <;> rfl
    · rcases hw with hw | hw <;> rw [hw] <;> rfl

/-- Witness for C7: the complete run in which `t2` goes first ends at time 4. -/
theorem sleeps_serialized_witness :
    exec schedMohamedFirst init = some (traceMohamedFirst, finalMohamedFirst) ∧
    finalMohamedFirst.main = .exited ∧ finalMohamedFirst.now = 4 ∧
    (¬ (asleepOf finalMohamedFirst.t1 = true ∧ asleepOf finalMohamedFirst.t2 = true) ∧
    (∀ w, asleepOf (finalMohamedFirst.thr w) = true → finalMohamedFirst.carMutex = some w) ∧
    proj .time traceMohamedFirst = List.replicate finalMohamedFirst.now .tick ∧
    finalMohamedFirst.now ≤ 2 * sleepSeconds ∧
    (finalMohamedFirst.main = .exited →
      (writes traceMohamedFirst = block .t1 "ATIBI" 0 ++ block .t2 "Mohamed" 2 ∨
       writes traceMohamedFirst = block .t2 "Mohamed" 0 ++ block .t1 "ATIBI" 2) ∧
      (writes traceMohamedFirst).head?.map (fun x => x.time) = some 0 ∧
      (writes traceMohamedFirst).getLast?.map (fun x => x.time) = some 4 ∧
      finalMohamedFirst.now = 2 * sleepSeconds)) :=
  ⟨exec_mohamedFirst, rfl, rfl,
    sleeps_serialized schedMohamedFirst traceMohamedFirst finalMohamedFirst exec_mohamedFirst⟩

/-- C10, lock discipline of worker `w`: in every execution `w` has acquired
`carMutex` at most once and released it no more often than it acquired it, and
exactly once each when it has finished; a step that releases the mutex on
behalf of `w` is taken by `w` itself at its `carLock.unlock()` statement while
it holds the mutex; `carLock` owns the mutex exactly inside the critical
section, so it does not own it at the closing brace and the destructor does
not release again; a finished worker does not hold the mutex; and the mutex is
free when `main` has returned. -/
theorem lock_discipline (sched : List Actor) (tr : List Stamped) (s : State)
    (h : exec sched init = some (tr, s)) (w : Worker) :
    (tr.map (fun x => x.ev)).count (.release w) ≤ (tr.map (fun x => x.ev)).count (.acquire w) ∧
    (tr.map (fun x => x.ev)).count (.acquire w) ≤ 1 ∧
    (finished (s.thr w) = true →
      (tr.map (fun x => x.ev)).count (.acquire w) = 1 ∧
      (tr.map (fun x => x.ev)).count (.release w) = 1 ∧
      s.carMutex ≠ some w) ∧
    (∀ a v s', step a s = some (.release v, s') →
      a = .thread v ∧ s.carMutex = some v ∧ ∃ t, s.thr v = some t ∧ t.pc = .unlock) ∧
    (∀ t, s.thr w = some t → t.carLockOwns = t.pc.inCS ∧ (t.pc = .ret → t.carLockOwns = false)) ∧
    (s.main = .exited → s.carMutex = none) := by
  have hr := exec_reach h
  have hi := reach_sinv hr
  have hp := reach_pinv hr
  have ca := count_proj (.acquire w) tr
  have cr := count_proj (.release w) tr
  simp only [Event.actor] at ca cr
  rw [proj_thread hp w] at ca cr
  have cs := count_script w (s.thr w)
  rw [ca, cr] at cs
  have hfin : ∀ v, finished (s.thr v) = true → s.carMutex ≠ some v := by
    intro v hf hm
    obtain ⟨t, ht, hcs⟩ := holder_inCS hi hm
    rw [ht] at hf
    simp only [finished, beq_iff_eq] at hf
    rw [hf] at hcs
    exact absurd hcs (by decide)
  refine ⟨cs.1, cs.2.1, fun hf => ⟨(cs.2.2 hf).1, (cs.2.2 hf).2, hfin w hf⟩,
    fun a v s' hs => release_step hi hs, ?_, ?_⟩
  · intro t ht
    have := hi.thread w
    rw [ht, threadOk_some] at this
    refine ⟨this.2.1, fun hret => ?_⟩
    rw [this.2.1, hret]
    rfl
  · intro hdone
    obtain ⟨f1, f2⟩ := joined_finished hi (Or.inr hdone)
    cases hm : s.carMutex with
    | none => rfl
    | some v =>
      cases v
      · exact absurd hm (hfin .t1 f1)
      · exact absurd hm (hfin .t2 f2)

/-- Witness for C10: the complete run in which `t1` goes first, for `t2`. -/
theorem lock_discipline_witness :
    exec schedAtibiFirst init = some (traceAtibiFirst, finalAtibiFirst) ∧
    finished (finalAtibiFirst.thr .t2) = true ∧
    ((traceAtibiFirst.map (fun x => x.ev)).count (.release .t2) ≤
      (traceAtibiFirst.map (fun x => x.ev)).count (.acquire .t2) ∧
    (traceAtibiFirst.map (fun x => x.ev)).count (.acquire .t2) ≤ 1 ∧
    (finished (finalAtibiFirst.thr .t2) = true →
      (traceAtibiFirst.map (fun x => x.ev)).count (.acquire .t2) = 1 ∧
      (traceAtibiFirst.map (fun x => x.ev)).count (.release .t2) = 1 ∧
      finalAtibiFirst.carMutex ≠ some .t2) ∧
    (∀ a v s', step a finalAtibiFirst = some (.release v, s') →
      a = .thread v ∧ finalAtibiFirst.carMutex = some v ∧
        ∃ t, finalAtibiFirst.thr v = some t ∧ t.pc = .unlock) ∧
    (∀ t, finalAtibiFirst.thr .t2 = some t →
      t.carLockOwns = t.pc.inCS ∧ (t.pc = .ret → t.carLockOwns = false)) ∧
    (finalAtibiFirst.main = .exited → finalAtibiFirst.carMutex = none)) :=
  ⟨exec_atibiFirst, rfl,
    lock_discipline schedAtibiFirst traceAtibiFirst finalAtibiFirst exec_atibiFirst .t2⟩

/-- C4, contract of `driveCar`: for every worker `w`, driver name `name`,
earlier console text `out` and start time `t0`, running `driveCar name` alone
from a state with the mutex free, with any fuel of 13 steps or more, performs
exactly these steps in this order: acquire `carMutex`; insert `name`,
" is driving" and a newline; enter `sleep_for`, two clock ticks, wake up two
seconds later; insert `name`, " is done driving" and a newline; release
`carMutex`; return.  It then stops, having appended exactly the two lines to
the console, with the mutex free again. -/
theorem driveCar_contract (w : Worker) (name out : String) (t0 k : Nat) :
    (soloRun w (13 + k) (soloState w name out t0)).1 =
      [⟨t0, .acquire w⟩,
       ⟨t0, .write w name⟩, ⟨t0, .write w " is driving"⟩, ⟨t0, .write w "\n"⟩,
       ⟨t0, .sleepStart w 2⟩, ⟨t0, .tick⟩, ⟨t0 + 1, .tick⟩, ⟨t0 + 2, .wakeUp w⟩,
       ⟨t0 + 2, .write w name⟩, ⟨t0 + 2, .write w " is done driving"⟩,
       ⟨t0 + 2, .write w "\n"⟩,
       ⟨t0 + 2, .release w⟩,
       ⟨t0 + 2, .finish w⟩] ∧
    (soloRun w (13 + k) (soloState w name out t0)).2.cout =
      out ++ name ++ " is driving" ++ "\n" ++ name ++ " is done driving" ++ "\n" ∧
    (soloRun w (13 + k) (soloState w name out t0)).2.now = t0 + 2 ∧
    (soloRun w (13 + k) (soloState w name out t0)).2.carMutex = none ∧
    (soloRun w (13 + k) (soloState w name out t0)).2.aborted = false ∧
    finished ((soloRun w (13 + k) (soloState w name out t0)).2.thr w) = true ∧
    soloStep w (soloRun w (13 + k) (soloState w name out t0)).2 = none ∧
    (soloState w name out t0).carMutex = none := by
  rw [soloRun_more w 13 k _ _ _ (soloRun_thirteen w name out t0) (soloFinal_halt w name out t0)]
  refine ⟨rfl, ?_, ?_, ?_, ?_, ?_, soloFinal_halt w name out t0, ?_⟩ <;> cases w <;> rfl

/-- C8, the order of the two critical sections is not fixed: there is a
complete execution whose first output line is "ATIBI is driving" and one whose
first output line is "Mohamed is driving"; in the second, `main` has started
`t1` and then `t2`, and `t2` is the first to take the mutex. -/
theorem order_not_fixed :
    (∃ sched tr s, exec sched init = some (tr, s) ∧ s.main = .exited ∧
      (consoleLines s.cout).head? = some "ATIBI is driving" ∧
      tr.take 3 = [⟨0, .spawn .t1 "ATIBI"⟩, ⟨0, .spawn .t2 "Mohamed"⟩, ⟨0, .acquire .t1⟩]) ∧
    (∃ sched tr s, exec sched init = some (tr, s) ∧ s.main = .exited ∧
      (consoleLines s.cout).head? = some "Mohamed is driving" ∧
      tr.take 3 = [⟨0, .spawn .t1 "ATIBI"⟩, ⟨0, .spawn .t2 "Mohamed"⟩, ⟨0, .acquire .t2⟩]) :=
  ⟨⟨schedAtibiFirst, traceAtibiFirst, finalAtibiFirst, exec_atibiFirst, rfl, by decide, rfl⟩,
   ⟨schedMohamedFirst, traceMohamedFirst, finalMohamedFirst, exec_mohamedFirst, rfl,
      by decide, rfl⟩⟩

end EchoApp
